import Mathlib

/-!
Verification development for the log-viewer core pipeline
(`src/logProvider.ts`, plus the later revision of the same file whose name
is unknown, here embedded under namespace `V2`).

The TypeScript source is shallowly embedded: strings are Lean `String`s
(worked on through their `List Char` data), the line-splitting regex
`/\r?\n/`, the header regex, the banner and part-delimiter regexes, the
`Build version` regex and the state-transition regex are implemented as
executable character-level functions, and the stateful parsing / filtering /
regeneration methods become pure state-passing functions.
-/

/-- JS `\s` on the ASCII range plus NBSP (the whitespace class used by the
source's `replace(/^\s+/, '')`, `trimStart()` and channel validation). -/
def jsWs (c : Char) : Bool :=
  c = ' ' || c = '\t' || c = '\n' || c = '\r' || c = '\x0b' || c = '\x0c' || c = '\xa0'

/-- `pre` is a leading run of `l` (used to embed `^`-anchored literal regexes). -/
def listStarts (pre l : List Char) : Bool :=
  match pre, l with
  | [], _ => true
  | _ :: _, [] => false
  | a :: pre', b :: l' => a = b && listStarts pre' l'

/-- JS `hay.indexOf(pat) !== -1` (substring containment). -/
def listHasSub (hay pat : List Char) : Bool :=
  if listStarts pat hay then true
  else
    match hay with
    | [] => false
    | _ :: t => listHasSub t pat

/-- JS `s.split(/\r?\n/)`: split on `\n`, treating `\r\n` as one delimiter. -/
def splitLinesCh : List Char → List (List Char)
  | [] => [[]]
  | '\r' :: '\n' :: rest => [] :: splitLinesCh rest
  | '\n' :: rest => [] :: splitLinesCh rest
  | c :: rest =>
    match splitLinesCh rest with
    | [] => [[c]]
    | l :: ls => (c :: l) :: ls

def splitLogLines (s : String) : List String :=
  (splitLinesCh s.data).map (fun l => ⟨l⟩)

/-- `lines.join('\n')`. -/
def joinLines : List String → String
  | [] => ""
  | [l] => l
  | l :: ls => l ++ "\n" ++ joinLines ls

/-- JS `toLowerCase` (ASCII letters, as in `Char.toLower`). -/
def lowerStr (s : String) : String := ⟨s.data.map Char.toLower⟩

/-- JS `trimStart()` / `replace(/^\s+/, '')` on a char list. -/
def trimStartCh (l : List Char) : List Char := l.dropWhile jsWs

/-- JS `trim()`. -/
def jsTrim (s : String) : String :=
  ⟨((s.data.dropWhile jsWs).reverse.dropWhile jsWs).reverse⟩

/-- `^================== APP STARTED =================` (startRegex.test). -/
def isBanner (l : String) : Bool :=
  listStarts "================== APP STARTED =================".data l.data

/-- `^===== (BEGIN|END) PART:` (partRegex.test). -/
def isPartDelim (l : String) : Bool :=
  listStarts "===== BEGIN PART:".data l.data || listStarts "===== END PART:".data l.data

/-- The header prefix regex `^\[(\d{2}-\d{2} \d{2}:\d{2}:\d{2}\.\d{3})\]\[(.)\]`:
returns `(m[1], m[2], the line after m[0])` on success.  JS `.` excludes
line terminators, hence the side condition on the level character. -/
def headMatchCore : List Char → Option (String × Char × List Char)
  | '[' :: a :: b :: '-' :: c :: d :: ' ' :: e :: f :: ':' :: g :: h :: ':' :: i :: j :: '.' :: k :: l :: m :: ']' :: '[' :: lvl :: ']' :: rest =>
    if (a.isDigit && b.isDigit && c.isDigit && d.isDigit && e.isDigit && f.isDigit &&
        g.isDigit && h.isDigit && i.isDigit && j.isDigit && k.isDigit && l.isDigit && m.isDigit)
        && !(lvl = '\n' || lvl = '\r' || lvl = '\u2028' || lvl = '\u2029') then
      some (⟨[a, b, '-', c, d, ' ', e, f, ':', g, h, ':', i, j, '.', k, l, m]⟩, lvl, rest)
    else none
  | _ => none

def headMatch (s : String) : Option (String × Char × List Char) :=
  match s.data with
  | c :: rest => if c = '[' then headMatchCore (c :: rest) else none
  | [] => none

/-- Number of header lines in a line list (both passes count exactly these). -/
def countHeaders (ls : List String) : Nat :=
  ls.countP (fun l => (headMatch l).isSome)

def countBanners (ls : List String) : Nat :=
  ls.countP (fun l => isBanner l)

/-- `(WorkingQueue:<digits>)` prefix match: returns the line after `wq[0]`. -/
def wqMatch (l : List Char) : Option (List Char) :=
  if listStarts "(WorkingQueue:".data l then
    let r := l.drop 14
    let ds := r.takeWhile Char.isDigit
    if ds = [] then none
    else
      match r.drop ds.length with
      | ')' :: rest => some rest
      | _ => none
  else none

/-- First index of `c` in `l` (JS `indexOf`). -/
def idxOfChar (c : Char) : List Char → Option Nat
  | [] => none
  | a :: t => if a = c then some 0 else (idxOfChar c t).map (· + 1)

/-- One step of the channel-token loop body; `none` means `break`.
Mirrors: strip `^\s+`; require leading `[`; `end = indexOf(']')`; break on
`end <= 1`; break when the token has whitespace or a quote. -/
def chanStep (l : List Char) : Option (String × List Char) :=
  let r := trimStartCh l
  match r with
  | '[' :: _ =>
    match idxOfChar ']' r with
    | none => none
    | some e =>
      if e ≤ 1 then none
      else
        let ch := (r.drop 1).take (e - 1)
        if ch.any (fun c => jsWs c || c = Char.ofNat 39 || c = '"') then none
        else some (⟨ch⟩, r.drop (e + 1))
  | _ => none

/-- The channel loop (`while(true) { ... }`), with fuel (each successful step
consumes at least three characters, so the fuel is never exhausted).
Returns the collected channels and the rest of the line as left at the break
(the loop strips leading whitespace before deciding to break). -/
def chanLoop : Nat → List Char → List String × List Char
  | 0, l => ([], trimStartCh l)
  | fuel + 1, l =>
    match chanStep l with
    | none => ([], trimStartCh l)
    | some (ch, rest) =>
      let (chs, r) := chanLoop fuel rest
      (ch :: chs, r)

def parseChannels (l : List Char) : List String × List Char :=
  chanLoop (l.length + 1) l

structure LogMessage where
  index : Nat
  timestamp : String
  level : String
  channels : List String
  text : String
  deriving Repr, DecidableEq

structure AppSession where
  index : Nat
  startLine : Nat
  startOffset : Nat
  firstMessageTimestamp : Option String
  deriving Repr, DecidableEq

/-- `current.text += (current.text ? '\n' : '') + line`. -/
def appendCont (t l : String) : String :=
  if t = "" then l else t ++ "\n" ++ l

/-- Header-line processing after the prefix match: skip spaces, skip the
optional `(WorkingQueue:N)` tag, consume channel tokens, left-trim the rest. -/
def mkHeaderMsg (idx : Nat) (ts : String) (lvl : Char) (after : List Char) : LogMessage :=
  let r1 := trimStartCh after
  let r2 := match wqMatch r1 with
    | some r => trimStartCh r
    | none => r1
  let (chs, r3) := parseChannels r2
  { index := idx, timestamp := ts, level := ⟨[lvl]⟩, channels := chs, text := ⟨trimStartCh r3⟩ }

/-- `!last.firstMessageTimestamp` (JS falsiness: null or empty string). -/
def fmtFalsy : Option String → Bool
  | none => true
  | some t => t = ""

/-- `if (this.sessions.length > 0) { const last = ...; if (!last.firstMessageTimestamp) last.firstMessageTimestamp = timestamp; }` -/
def setLastFMT (ss : List AppSession) (ts : String) : List AppSession :=
  match ss.getLast? with
  | none => ss
  | some s =>
    if fmtFalsy s.firstMessageTimestamp then
      ss.dropLast ++ [{ s with firstMessageTimestamp := some ts }]
    else ss

structure ParseState where
  parsed : List LogMessage
  sessions : List AppSession
  current : Option LogMessage
  index : Nat
  sessionIndex : Nat
  lineNo : Nat
  deriving Repr

/-- The main loop of `parseCombined` (src/logProvider.ts): banner lines append
a session and are skipped; header lines flush `current` and open a new
message; other lines are continuation lines of `current` if one is open,
otherwise dropped.  (The channel tree and colour caches are display-side
derived state not modelled here.) -/
def parseLoop (st : ParseState) : List String → ParseState
  | [] => st
  | line :: rest =>
    if isBanner line then
      parseLoop { st with
        sessions := st.sessions ++
          [{ index := st.sessionIndex + 1, startLine := st.lineNo,
             startOffset := st.index, firstMessageTimestamp := none }],
        sessionIndex := st.sessionIndex + 1,
        lineNo := st.lineNo + 1 } rest
    else
      match headMatch line with
      | some (ts, lvl, after) =>
        parseLoop { st with
          parsed := st.parsed ++ st.current.toList,
          sessions := setLastFMT st.sessions ts,
          current := some (mkHeaderMsg st.index ts lvl after),
          index := st.index + 1,
          lineNo := st.lineNo + 1 } rest
      | none =>
        match st.current with
        | some c =>
          parseLoop { st with
            current := some { c with text := appendCont c.text line },
            lineNo := st.lineNo + 1 } rest
        | none => parseLoop { st with lineNo := st.lineNo + 1 } rest

structure ParseResult where
  messages : List LogMessage
  sessions : List AppSession
  deriving Repr

/-- `parseCombined` (src/logProvider.ts, lines 947-1043). -/
def parseCombined (content : String) : ParseResult :=
  let st := parseLoop ⟨[], [], none, 0, 0, 0⟩ (splitLogLines content)
  { messages := st.parsed ++ st.current.toList, sessions := st.sessions }

-- ==================== Filter Engine (src/logProvider.ts 812-873) ====================

structure FilterQuery where
  levels : List String
  channels : List String
  sessions : List Nat
  text : String
  deriving Repr, DecidableEq

/-- `getSessionByMessageIndex`: last session (in list order) with
`startOffset <= idx`, default 0; the loop breaks at the first failure. -/
def getSessionByMessageIndex (sessions : List AppSession) (idx : Nat) : Nat :=
  go 0 sessions
where
  go (sid : Nat) : List AppSession → Nat
    | [] => sid
    | s :: rest => if s.startOffset ≤ idx then go s.index rest else sid

def knownLevels : List String := ["!", "E", "W", "I", "D", ""]

def noChannelSentinel : String := "(без канала)"

/-- `'>'`-joined channel path. -/
def joinPath (chs : List String) : String := String.intercalate ">" chs

/-- Level predicate: `if (hasKnownLevel && !levelSet.has(level)) continue;`. -/
def levelPasses (q : FilterQuery) (msg : LogMessage) : Bool :=
  !(knownLevels.contains msg.level && !q.levels.contains msg.level)

/-- Channel predicate: with channels, every inclusive prefix path must be
allowed (the source's early `break` does not change the boolean outcome);
without channels, the `(без канала)` sentinel must be allowed. -/
def channelPasses (q : FilterQuery) (msg : LogMessage) : Bool :=
  if msg.channels.length > 0 then
    (List.range msg.channels.length).all
      (fun i => q.channels.contains (joinPath (msg.channels.take (i + 1))))
  else q.channels.contains noChannelSentinel

def sessionPasses (sessions : List AppSession) (q : FilterQuery) (msg : LogMessage) : Bool :=
  q.sessions.contains (getSessionByMessageIndex sessions msg.index)

/-- Text predicate: case-insensitive substring of the body or the joined path. -/
def textPasses (q : FilterQuery) (msg : LogMessage) : Bool :=
  let t := lowerStr q.text
  !(t ≠ "" && (!listHasSub (lowerStr msg.text).data t.data
               && !listHasSub (lowerStr (joinPath msg.channels)).data t.data))

def messagePasses (sessions : List AppSession) (q : FilterQuery) (msg : LogMessage) : Bool :=
  levelPasses q msg && channelPasses q msg && sessionPasses sessions q msg && textPasses q msg

/-- JS `Set.add` (insertion order, no duplicates). -/
def setAdd (l : List Nat) (n : Nat) : List Nat :=
  if l.contains n then l else l ++ [n]

/-- `filterMessages` (src/logProvider.ts 823-873): indices of messages that
pass all four predicates, in message order. -/
def filterMessages (parsed : List LogMessage) (sessions : List AppSession)
    (q : FilterQuery) : List Nat :=
  parsed.foldl (fun acc msg => if messagePasses sessions q msg then setAdd acc msg.index else acc) []

-- ==================== Stream Regenerator (src/logProvider.ts 1083-1114) ====================

/-- `-1` before any header is modelled as `none`; `currentMessageIndex++`. -/
def nextIdx : Option Nat → Nat
  | none => 0
  | some k => k + 1

/-- The scanning loop of `generateCombinedLog`: delimiter lines always pass
through and do not touch the counter; header lines advance the counter and
recompute the include flag; every other line is copied iff the flag is set. -/
def genGo (allowed : List Nat) : Option Nat → Bool → List String → List String
  | _, _, [] => []
  | mIdx, inc, l :: ls =>
    if isBanner l || isPartDelim l then l :: genGo allowed mIdx inc ls
    else
      match headMatch l with
      | some _ =>
        let k := nextIdx mIdx
        let inc' := allowed.contains k
        (if inc' then [l] else []) ++ genGo allowed (some k) inc' ls
      | none => (if inc then [l] else []) ++ genGo allowed mIdx inc ls

/-- `generateCombinedLog` (src/logProvider.ts 1083-1114), with the retained
original content passed explicitly. -/
def generateCombinedLog (originalCombinedContent : String) (allowedMessageIndices : List Nat) : String :=
  joinLines (genGo allowedMessageIndices none false (splitLogLines originalCombinedContent))

/-- The set of all message indices the parser assigns to `content`. -/
def allIndices (content : String) : List Nat :=
  (parseCombined content).messages.map (·.index)

-- ==================== applyFilters state (src/logProvider.ts 1056-1076) ====================

/-- The provider state touched by a filter cycle: the retained original, the
derived parse state, and the materialized `combined_logs.txt` content (the
`fs.writeFileSync` target).  UI concerns (webview counters, decorations,
editor reloads) read but never write these fields. -/
structure ProviderState where
  combinedPathSet : Bool
  originalCombinedContent : String
  parsed : List LogMessage
  sessions : List AppSession
  combinedFileContent : String
  deriving Repr

/-- `applyFilters`: guard on `combinedPath`/`originalCombinedContent`, filter,
regenerate from the retained original, overwrite the materialized file. -/
def applyFilters (st : ProviderState) (payload : FilterQuery) : ProviderState :=
  if !st.combinedPathSet || st.originalCombinedContent = "" then st
  else
    let allowedMessageIndices := filterMessages st.parsed st.sessions payload
    let filteredContent := generateCombinedLog st.originalCombinedContent allowedMessageIndices
    { st with combinedFileContent := filteredContent }

-- ==================== V2: the later revision of logProvider.ts ====================

namespace V2

/-- JS line terminators, excluded by `.`. -/
def isLineTerm (c : Char) : Bool :=
  c = '\n' || c = '\r' || c = '\u2028' || c = '\u2029'

def wsRunLen (l : List Char) : Nat := (l.takeWhile jsWs).length

/-- One attempt of `Build version:\s*(.+)` at an occurrence of the literal,
given the tail after it: `\s*` greedily takes the whitespace run, then `(.+)`
takes the following non-line-terminator run (nonempty since a non-whitespace
character is not a terminator).  When the tail is all whitespace, `\s*`
backtracks one character at a time, so the first success makes the capture
the last non-terminator character of the run (every later run character is a
terminator by maximality); with no such character the attempt fails. -/
def bvMatchAfter (T : List Char) : Option (List Char) :=
  let w := wsRunLen T
  let rest := T.drop w
  if rest ≠ [] then some (rest.takeWhile (fun c => !isLineTerm c))
  else ((T.take w).filter (fun c => !isLineTerm c)).getLast?.map (fun c => [c])

/-- Leftmost-match scan of the unanchored `/Build version:\s*(.+)/`: try each
occurrence of the literal from the left; a failed attempt resumes scanning
one character further on.  Returns `m[1]`. -/
def bvScan : List Char → Option (List Char)
  | [] => none
  | c :: rest =>
    if listStarts "Build version:".data (c :: rest) then
      match bvMatchAfter ((c :: rest).drop 14) with
      | some cap => some cap
      | none => bvScan rest
    else bvScan rest

/-- `line.match(/Build version:\s*(.+)/)` followed by `m[1].trim()`. -/
def buildVersionOf (l : String) : Option String :=
  (bvScan l.data).map (fun cap => jsTrim ⟨cap⟩)

/-- The forward scan after a banner: stop at the next banner, return the
first `Build version:` capture. -/
def findBuildVersion : List String → Option String
  | [] => none
  | l :: rest =>
    if isBanner l then none
    else
      match buildVersionOf l with
      | some v => some v
      | none => findBuildVersion rest

structure StateTransition where
  messageIndex : Nat
  timestamp : String
  fromState : String
  toState : String
  deriving Repr, DecidableEq

structure AppSession where
  index : Nat
  startLine : Nat
  startOffset : Nat
  firstMessageTimestamp : Option String
  buildVersion : Option String
  transitions : List StateTransition
  deriving Repr, DecidableEq

def getSessionByMessageIndex (sessions : List AppSession) (idx : Nat) : Nat :=
  go 0 sessions
where
  go (sid : Nat) : List AppSession → Nat
    | [] => sid
    | s :: rest => if s.startOffset ≤ idx then go s.index rest else sid

-- The state-transition regex `/^From\s+(.+?)\s+to\s+(.+)$/` (no `m` or `s`
-- flag): implemented as a backtracking matcher on the message text.

/-- `\s+to\s+(.+)$` against `l`, greedy `\s+` runs, returning the capture. -/
def spToSpRestInner (r : List Char) : Nat → Option (List Char)
  | 0 => none
  | j + 1 =>
    let rest := r.drop (j + 1)
    if rest ≠ [] && rest.all (fun c => !isLineTerm c) then some rest
    else spToSpRestInner r j

def spToSpRestOuter (l : List Char) : Nat → Option (List Char)
  | 0 => none
  | j + 1 =>
    let afterWs := l.drop (j + 1)
    (if listStarts "to".data afterWs then
       let r := l.drop (j + 3)
       spToSpRestInner r (wsRunLen r)
     else none).orElse
    (fun _ => spToSpRestOuter l j)

def spToSpRest (l : List Char) : Option (List Char) :=
  spToSpRestOuter l (wsRunLen l)

/-- The lazy group `(.+?)`: grow the capture one character at a time, trying
the tail `\s+to\s+(.+)$` after each growth, stopping at line terminators. -/
def tryLazy (g : List Char) : List Char → Option (String × String)
  | [] => none
  | c :: rest =>
    if isLineTerm c then none
    else
      let g' := g ++ [c]
      match spToSpRest rest with
      | some cap => some (⟨g'⟩, ⟨cap⟩)
      | none => tryLazy g' rest

/-- The first `\s+` of the pattern (greedy, backtracking into the lazy group). -/
def fromOuter (l : List Char) : Nat → Option (String × String)
  | 0 => none
  | j + 1 =>
    match tryLazy [] (l.drop (j + 1)) with
    | some r => some r
    | none => fromOuter l j

/-- `text.match(/^From\s+(.+?)\s+to\s+(.+)$/)`: `some (m[1], m[2])`. -/
def matchFromTo (s : String) : Option (String × String) :=
  if listStarts "From".data s.data then
    let l := s.data.drop 4
    fromOuter l (wsRunLen l)
  else none

/-- A message produces a transition iff it carries both state channels and
its text matches the transition regex. -/
def qualifies (msg : LogMessage) : Bool :=
  msg.channels.contains "GameStateManager" && msg.channels.contains "GameStateChanged"

/-- `sessions.find(s => s.index === sid)` followed by a push onto its
`transitions`; no session found means the transition is dropped. -/
def pushTransition (sid : Nat) (tr : StateTransition) : List AppSession → List AppSession
  | [] => []
  | s :: rest =>
    if s.index = sid then { s with transitions := s.transitions ++ [tr] } :: rest
    else s :: pushTransition sid tr rest

def attachStep (ss : List AppSession) (msg : LogMessage) : List AppSession :=
  if qualifies msg then
    match matchFromTo msg.text with
    | some (f, t) =>
      pushTransition (getSessionByMessageIndex ss msg.index)
        ⟨msg.index, msg.timestamp, f, t⟩ ss
    | none => ss
  else ss

/-- The transition-extraction pass at the end of `parseCombined` (part_001,
lines 2269-2292). -/
def attachTransitions (parsed : List LogMessage) (ss : List AppSession) : List AppSession :=
  parsed.foldl attachStep ss

/-- `if (!last.firstMessageTimestamp) last.firstMessageTimestamp = timestamp`
on the last session (JS falsiness as in the first revision). -/
def setLastFMT (ss : List AppSession) (ts : String) : List AppSession :=
  match ss.getLast? with
  | none => ss
  | some s =>
    if fmtFalsy s.firstMessageTimestamp then
      ss.dropLast ++ [{ s with firstMessageTimestamp := some ts }]
    else ss

structure ParseState where
  parsed : List LogMessage
  sessions : List AppSession
  current : Option LogMessage
  index : Nat
  sessionIndex : Nat
  lineNo : Nat
  deriving Repr

/-- The main loop of the later `parseCombined` (part_001, lines 2166-2260):
identical message handling; a banner additionally looks ahead (up to the
next banner) for the build version of the new session. -/
def parseLoop (st : ParseState) : List String → ParseState
  | [] => st
  | line :: rest =>
    if isBanner line then
      parseLoop { st with
        sessions := st.sessions ++
          [{ index := st.sessionIndex + 1, startLine := st.lineNo,
             startOffset := st.index, firstMessageTimestamp := none,
             buildVersion := findBuildVersion rest, transitions := [] }],
        sessionIndex := st.sessionIndex + 1,
        lineNo := st.lineNo + 1 } rest
    else
      match headMatch line with
      | some (ts, lvl, after) =>
        parseLoop { st with
          parsed := st.parsed ++ st.current.toList,
          sessions := setLastFMT st.sessions ts,
          current := some (mkHeaderMsg st.index ts lvl after),
          index := st.index + 1,
          lineNo := st.lineNo + 1 } rest
      | none =>
        match st.current with
        | some c =>
          parseLoop { st with
            current := some { c with text := appendCont c.text line },
            lineNo := st.lineNo + 1 } rest
        | none => parseLoop { st with lineNo := st.lineNo + 1 } rest

structure ParseResult where
  messages : List LogMessage
  sessions : List AppSession
  deriving Repr

/-- `parseCombined` (part_001, lines 2142-2296): main loop, final flush,
then the transition-extraction pass over the parsed messages. -/
def parseCombined (content : String) : ParseResult :=
  let st := parseLoop ⟨[], [], none, 0, 0, 0⟩ (splitLogLines content)
  let msgs := st.parsed ++ st.current.toList
  { messages := msgs, sessions := attachTransitions msgs st.sessions }

end V2

-- ==================== Basic lemmas about line classification ====================

theorem listStarts_cons_inv {a : Char} {pre l : List Char}
    (h : listStarts (a :: pre) l = true) : ∃ t, l = a :: t := by
  cases l with
  | nil => simp [listStarts] at h
  | cons b t =>
    simp [listStarts] at h
    exact ⟨t, by rw [h.1]⟩

theorem isBanner_headMatch {l : String} (h : isBanner l = true) : headMatch l = none := by
  unfold isBanner at h
  have h' : listStarts ('=' :: "================= APP STARTED =================".data) l.data = true := h
  obtain ⟨t, ht⟩ := listStarts_cons_inv h'
  simp [headMatch, ht]

theorem isPartDelim_headMatch {l : String} (h : isPartDelim l = true) : headMatch l = none := by
  unfold isPartDelim at h
  rcases Bool.or_eq_true_iff.mp h with h1 | h1
  · have h' : listStarts ('=' :: "==== BEGIN PART:".data) l.data = true := h1
    obtain ⟨t, ht⟩ := listStarts_cons_inv h'
    simp [headMatch, ht]
  · have h' : listStarts ('=' :: "==== END PART:".data) l.data = true := h1
    obtain ⟨t, ht⟩ := listStarts_cons_inv h'
    simp [headMatch, ht]

theorem headMatch_not_banner {l : String} {x : String × Char × List Char}
    (h : headMatch l = some x) : isBanner l = false := by
  by_contra hb
  rw [isBanner_headMatch (by simpa using hb)] at h
  exact absurd h (by simp)

theorem headMatch_not_part {l : String} {x : String × Char × List Char}
    (h : headMatch l = some x) : isPartDelim l = false := by
  by_contra hb
  rw [isPartDelim_headMatch (by simpa using hb)] at h
  exact absurd h (by simp)

theorem headMatch_ts_ne_empty {l ts : String} {lvl : Char} {r : List Char}
    (h : headMatch l = some (ts, lvl, r)) : ts ≠ "" := by
  unfold headMatch at h
  split at h
  · split at h
    · unfold headMatchCore at h
      split at h
      · split at h
        · intro he
          obtain ⟨rfl, -, -⟩ := Prod.mk.injEq .. ▸ (Option.some.injEq .. ▸ h)
          exact absurd (congrArg String.data he) (by simp)
        · exact absurd h (by simp)
      · exact absurd h (by simp)
    · exact absurd h (by simp)
  · exact absurd h (by simp)

-- ==================== Parse structure: chunk decomposition ====================

/-- The continuation lines a message absorbs: the following lines up to the
next header line, minus banner lines (which the parser skips). -/
def contOf (ls : List String) : List String :=
  (ls.takeWhile (fun x => (headMatch x).isNone)).filter (fun x => !isBanner x)

/-- The header lines of the input, each paired with its continuation lines. -/
def chunks : List String → List (String × List String)
  | [] => []
  | l :: ls =>
    if isBanner l then chunks ls
    else
      match headMatch l with
      | some _ => (l, contOf ls) :: chunks ls
      | none => chunks ls

/-- The message a chunk denotes: the parsed header, with every continuation
line appended to the text.  (The `none` branch is unreachable: `chunks` only
emits header lines.) -/
def mkChunkMsg (k : Nat) (pr : String × List String) : LogMessage :=
  match headMatch pr.1 with
  | some (ts, lvl, after) =>
    let m := mkHeaderMsg k ts lvl after
    { m with text := pr.2.foldl appendCont m.text }
  | none => { index := k, timestamp := "", level := "", channels := [], text := "" }

def chunkMsgs (idx : Nat) : List (String × List String) → List LogMessage
  | [] => []
  | c :: cs => mkChunkMsg idx c :: chunkMsgs (idx + 1) cs

def msgsOf (st : ParseState) : List LogMessage := st.parsed ++ st.current.toList

theorem contOf_cons_header {l : String} {x} (h : headMatch l = some x) (ls : List String) :
    contOf (l :: ls) = [] := by
  simp [contOf, List.takeWhile, h]

theorem contOf_cons_banner {l : String} (h : isBanner l = true) (ls : List String) :
    contOf (l :: ls) = contOf ls := by
  simp [contOf, List.takeWhile, isBanner_headMatch h, h]

theorem contOf_cons_other {l : String} (hb : isBanner l = false) (hh : headMatch l = none)
    (ls : List String) : contOf (l :: ls) = l :: contOf ls := by
  simp [contOf, List.takeWhile, hh, hb]

theorem chunks_cons_banner {l : String} (h : isBanner l = true) (ls : List String) :
    chunks (l :: ls) = chunks ls := by
  simp [chunks, h]

theorem chunks_cons_header {l : String} {x} (hb : isBanner l = false) (h : headMatch l = some x)
    (ls : List String) : chunks (l :: ls) = (l, contOf ls) :: chunks ls := by
  simp [chunks, hb, h]

theorem chunks_cons_other {l : String} (hb : isBanner l = false) (hh : headMatch l = none)
    (ls : List String) : chunks (l :: ls) = chunks ls := by
  simp [chunks, hb, hh]

/-- Structure of the parser's output: the already-closed messages, the open
message extended by the upcoming continuation lines, then one message per
remaining chunk, numbered consecutively from the running index. -/
theorem parseLoop_msgs (ls : List String) : ∀ st : ParseState,
    msgsOf (parseLoop st ls) = st.parsed ++
      (match st.current with
       | some c => [{ c with text := (contOf ls).foldl appendCont c.text }]
       | none => []) ++ chunkMsgs st.index (chunks ls) := by
  induction ls with
  | nil =>
    intro st
    simp [parseLoop, msgsOf, contOf, chunks, chunkMsgs]
    cases st.current <;> simp [Option.toList]
  | cons l ls ih =>
    intro st
    cases hb : isBanner l with
    | true =>
      rw [show parseLoop st (l :: ls) = parseLoop { st with
          sessions := st.sessions ++
            [{ index := st.sessionIndex + 1, startLine := st.lineNo,
               startOffset := st.index, firstMessageTimestamp := none }],
          sessionIndex := st.sessionIndex + 1,
          lineNo := st.lineNo + 1 } ls by simp [parseLoop, hb]]
      rw [ih, contOf_cons_banner hb, chunks_cons_banner hb]
    | false =>
      cases hh : headMatch l with
      | some x =>
        obtain ⟨ts, lvl, after⟩ := x
        rw [show parseLoop st (l :: ls) = parseLoop { st with
            parsed := st.parsed ++ st.current.toList,
            sessions := setLastFMT st.sessions ts,
            current := some (mkHeaderMsg st.index ts lvl after),
            index := st.index + 1,
            lineNo := st.lineNo + 1 } ls by simp [parseLoop, hb, hh]]
        rw [ih, contOf_cons_header hh, chunks_cons_header hb hh]
        simp only [chunkMsgs, mkChunkMsg, hh]
        cases st.current <;> simp [Option.toList]
      | none =>
        cases hc : st.current with
        | some c =>
          rw [show parseLoop st (l :: ls) = parseLoop { st with
              current := some { c with text := appendCont c.text l },
              lineNo := st.lineNo + 1 } ls by simp [parseLoop, hb, hh, hc]]
          rw [ih, contOf_cons_other hb hh, chunks_cons_other hb hh]
          simp [List.foldl]
        | none =>
          rw [show parseLoop st (l :: ls) = parseLoop { st with
              lineNo := st.lineNo + 1 } ls by simp [parseLoop, hb, hh, hc]]
          rw [ih, chunks_cons_other hb hh]
          simp [hc]

/-- The parsed message sequence is exactly the chunk decomposition. -/
theorem parseCombined_messages (content : String) :
    (parseCombined content).messages = chunkMsgs 0 (chunks (splitLogLines content)) := by
  have h := parseLoop_msgs (splitLogLines content) ⟨[], [], none, 0, 0, 0⟩
  simpa [parseCombined, msgsOf] using h

theorem mkChunkMsg_index (k : Nat) (pr : String × List String) : (mkChunkMsg k pr).index = k := by
  unfold mkChunkMsg
  split
  · simp [mkHeaderMsg]
  · rfl

theorem chunkMsgs_length (cs : List (String × List String)) :
    ∀ idx, (chunkMsgs idx cs).length = cs.length := by
  induction cs with
  | nil => intro idx; rfl
  | cons c cs ih => intro idx; simp [chunkMsgs, ih]

theorem chunkMsgs_getElem? (cs : List (String × List String)) :
    ∀ idx k, (chunkMsgs idx cs)[k]? = (cs[k]?).map (mkChunkMsg (idx + k)) := by
  induction cs with
  | nil => intro idx k; simp [chunkMsgs]
  | cons c cs ih =>
    intro idx k
    cases k with
    | zero => simp [chunkMsgs]
    | succ k =>
      simp only [chunkMsgs, List.getElem?_cons_succ]
      rw [ih (idx + 1) k]
      have harith : idx + 1 + k = idx + (k + 1) := by omega
      rw [harith]

/-- Message indices are the positions: the parser numbers messages 0,1,2,… -/
theorem parseCombined_index (content : String) (k : Nat) (m : LogMessage)
    (h : (parseCombined content).messages[k]? = some m) : m.index = k := by
  rw [parseCombined_messages content, chunkMsgs_getElem?] at h
  cases hk : (chunks (splitLogLines content))[k]? with
  | none => exact absurd (hk ▸ h) (by simp)
  | some pr =>
    rw [hk] at h
    have h2 : mkChunkMsg (0 + k) pr = m := by simpa using h
    rw [← h2, mkChunkMsg_index]
    simp

/-- Two parsed messages with the same index are the same message. -/
theorem parseCombined_index_inj (content : String) {m m' : LogMessage}
    (hm : m ∈ (parseCombined content).messages) (hm' : m' ∈ (parseCombined content).messages)
    (h : m.index = m'.index) : m = m' := by
  obtain ⟨i, hi, hgi⟩ := List.getElem_of_mem hm
  obtain ⟨j, hj, hgj⟩ := List.getElem_of_mem hm'
  have hqi : (parseCombined content).messages[i]? = some m := by
    rw [List.getElem?_eq_getElem hi, hgi]
  have hqj : (parseCombined content).messages[j]? = some m' := by
    rw [List.getElem?_eq_getElem hj, hgj]
  have hij : i = j := by
    rw [parseCombined_index content i m hqi, parseCombined_index content j m' hqj] at h
    exact h
  subst hij
  rw [hqi] at hqj
  exact Option.some.injEq .. |>.mp hqj

-- ==================== Filter membership ====================

theorem setAdd_mem (l : List Nat) (n i : Nat) : i ∈ setAdd l n ↔ i ∈ l ∨ i = n := by
  unfold setAdd
  split
  · next h =>
      have hn : n ∈ l := by simpa using h
      constructor
      · exact fun hi => Or.inl hi
      · rintro (hi | rfl)
        · exact hi
        · exact hn
  · simp

theorem filterMessages_go (sessions : List AppSession) (q : FilterQuery)
    (parsed : List LogMessage) : ∀ (acc : List Nat) (i : Nat),
    i ∈ parsed.foldl (fun acc msg => if messagePasses sessions q msg then setAdd acc msg.index else acc) acc ↔
      i ∈ acc ∨ ∃ msg ∈ parsed, messagePasses sessions q msg ∧ msg.index = i := by
  induction parsed with
  | nil => intro acc i; simp
  | cons m parsed ih =>
    intro acc i
    simp only [List.foldl_cons]
    split
    · next hp =>
      rw [ih, setAdd_mem]
      constructor
      · rintro ((hi | rfl) | ⟨msg, hmem, hpass, hidx⟩)
        · exact Or.inl hi
        · exact Or.inr ⟨m, by simp, hp, rfl⟩
        · exact Or.inr ⟨msg, by simp [hmem], hpass, hidx⟩
      · rintro (hi | ⟨msg, hmem, hpass, hidx⟩)
        · exact Or.inl (Or.inl hi)
        · rcases List.mem_cons.mp hmem with rfl | hmem'
          · exact Or.inl (Or.inr hidx.symm)
          · exact Or.inr ⟨msg, hmem', hpass, hidx⟩
    · next hp =>
      rw [ih]
      constructor
      · rintro (hi | ⟨msg, hmem, hpass, hidx⟩)
        · exact Or.inl hi
        · exact Or.inr ⟨msg, by simp [hmem], hpass, hidx⟩
      · rintro (hi | ⟨msg, hmem, hpass, hidx⟩)
        · exact Or.inl hi
        · rcases List.mem_cons.mp hmem with rfl | hmem'
          · exact absurd hpass hp
          · exact Or.inr ⟨msg, hmem', hpass, hidx⟩

/-- Membership in the filter result. -/
theorem mem_filterMessages (parsed : List LogMessage) (sessions : List AppSession)
    (q : FilterQuery) (i : Nat) :
    i ∈ filterMessages parsed sessions q ↔
      ∃ msg ∈ parsed, messagePasses sessions q msg ∧ msg.index = i := by
  unfold filterMessages
  rw [filterMessages_go]
  simp

-- ==================== Claim C3: channel parent-dominance ====================

/-- C3: a parsed message is in the filter result only if every
prefix path of its channel list (outermost channel up to the full path,
`>`-joined) is present in `query.channels`; consequently a message whose
channel list extends an absent parent prefix never appears in the result,
even if a deeper path is listed. -/
theorem c3_channel_dominance (content : String) (q : FilterQuery) (msg : LogMessage)
    (hmem : msg ∈ (parseCombined content).messages)
    (hin : msg.index ∈ filterMessages (parseCombined content).messages
      (parseCombined content).sessions q)
    (k : Nat) (hk : k < msg.channels.length) :
    q.channels.contains (joinPath (msg.channels.take (k + 1))) = true := by
  obtain ⟨msg', hmem', hpass, hidx⟩ := (mem_filterMessages _ _ _ _).mp hin
  have heq : msg' = msg := parseCombined_index_inj content hmem' hmem hidx
  subst heq
  have hch : channelPasses q msg' = true := by
    unfold messagePasses at hpass
    simp only [Bool.and_eq_true] at hpass
    exact hpass.1.1.2
  unfold channelPasses at hch
  rw [if_pos (by omega)] at hch
  exact List.all_eq_true.mp hch k (List.mem_range.mpr hk)

def c3Content : String := "[00-00 00:00:00.000][I] [A][B] hi"

def c3Query : FilterQuery :=
  { levels := ["I"], channels := ["A", "A>B"], sessions := [0], text := "" }

def c3Msg : LogMessage :=
  { index := 0, timestamp := "00-00 00:00:00.000", level := "I",
    channels := ["A", "B"], text := "hi" }

theorem c3_channel_dominance_witness :
    c3Msg ∈ (parseCombined c3Content).messages ∧
      c3Query.channels.contains (joinPath (c3Msg.channels.take 2)) = true :=
  ⟨by decide, c3_channel_dominance c3Content c3Query c3Msg (by decide) (by decide) 1 (by decide)⟩

-- ==================== Claim C5: level predicate ====================

def c5Content : String := "[00-00 00:00:00.000][T] hi"

def c5Query : FilterQuery :=
  { levels := [], channels := ["(без канала)"], sessions := [0], text := "" }

/-- C5 counterexample: the claim takes `T` to be a recognized level code, so a
message of level `T` with `T` absent from `query.levels` would have to be
filtered out; the code's known-level list is `['!','E','W','I','D','']`, so
the message passes the level predicate and lands in the result. -/
theorem c5_level_counterexample :
    ((parseCombined c5Content).messages.map (fun m => m.level) = ["T"]) ∧
      c5Query.levels = [] ∧
      filterMessages (parseCombined c5Content).messages (parseCombined c5Content).sessions
        c5Query = [0] := by
  refine ⟨by decide, rfl, by decide⟩

/-- C5 (amended): the recognized level codes are exactly
`knownLevels = ['!','E','W','I','D','']`; a message whose level is recognized
is excluded whenever its level is missing from `query.levels`, and a message
with any other level code (including 'T', 'F', ' ') is never filtered by
level: its membership in the result does not depend on `query.levels`. -/
theorem c5_level_amended (content : String) (q : FilterQuery) (msg : LogMessage)
    (hmem : msg ∈ (parseCombined content).messages) :
    (knownLevels.contains msg.level = true → q.levels.contains msg.level = false →
      msg.index ∉ filterMessages (parseCombined content).messages
        (parseCombined content).sessions q)
    ∧ (knownLevels.contains msg.level = false → ∀ L₁ L₂ : List String,
        (msg.index ∈ filterMessages (parseCombined content).messages
            (parseCombined content).sessions { q with levels := L₁ } ↔
         msg.index ∈ filterMessages (parseCombined content).messages
            (parseCombined content).sessions { q with levels := L₂ })) := by
  constructor
  · intro hknown habsent hin
    obtain ⟨msg', hmem', hpass, hidx⟩ := (mem_filterMessages _ _ _ _).mp hin
    have heq : msg' = msg := parseCombined_index_inj content hmem' hmem hidx
    subst heq
    have hlvl : levelPasses q msg' = true := by
      unfold messagePasses at hpass
      simp only [Bool.and_eq_true] at hpass
      exact hpass.1.1.1
    unfold levelPasses at hlvl
    rw [hknown, habsent] at hlvl
    simp at hlvl
  · intro hunknown L₁ L₂
    have key : ∀ L L' : List String,
        msg.index ∈ filterMessages (parseCombined content).messages
          (parseCombined content).sessions { q with levels := L } →
        msg.index ∈ filterMessages (parseCombined content).messages
          (parseCombined content).sessions { q with levels := L' } := by
      intro L L' hin
      obtain ⟨msg', hmem', hpass, hidx⟩ := (mem_filterMessages _ _ _ _).mp hin
      have heq : msg' = msg := parseCombined_index_inj content hmem' hmem hidx
      subst heq
      refine (mem_filterMessages _ _ _ _).mpr ⟨msg', hmem', ?_, hidx⟩
      have hnk : msg'.level ∉ knownLevels := by simpa using hunknown
      unfold messagePasses levelPasses channelPasses sessionPasses textPasses at hpass ⊢
      simpa [hnk] using hpass
    exact ⟨key L₁ L₂, key L₂ L₁⟩

def c5aContent : String := "[00-00 00:00:00.000][T] hi"

def c5aQuery : FilterQuery :=
  { levels := ["D"], channels := ["(без канала)"], sessions := [0], text := "" }

def c5aMsg : LogMessage :=
  { index := 0, timestamp := "00-00 00:00:00.000", level := "T",
    channels := [], text := "hi" }

theorem c5_level_amended_witness :
    c5aMsg ∈ (parseCombined c5aContent).messages ∧
      knownLevels.contains c5aMsg.level = false ∧
      (c5aMsg.index ∈ filterMessages (parseCombined c5aContent).messages
          (parseCombined c5aContent).sessions { c5aQuery with levels := ["T"] } ↔
       c5aMsg.index ∈ filterMessages (parseCombined c5aContent).messages
          (parseCombined c5aContent).sessions { c5aQuery with levels := [] }) :=
  ⟨by decide, by decide,
    (c5_level_amended c5aContent c5aQuery c5aMsg (by decide)).2 (by decide) ["T"] []⟩

-- ==================== Claim C6: the no-channel sentinel ====================

/-- C6: a parsed message with zero channels passes the channel
predicate iff the `(без канала)` sentinel is listed in `query.channels`; with
the other predicates satisfied, it is in the result exactly when the sentinel
is listed. -/
theorem c6_no_channel_sentinel (content : String) (q : FilterQuery) (msg : LogMessage)
    (hmem : msg ∈ (parseCombined content).messages)
    (hch : msg.channels = [])
    (hlvl : levelPasses q msg = true)
    (hsess : sessionPasses (parseCombined content).sessions q msg = true)
    (htext : textPasses q msg = true) :
    (msg.index ∈ filterMessages (parseCombined content).messages
        (parseCombined content).sessions q ↔
      q.channels.contains noChannelSentinel = true) := by
  constructor
  · intro hin
    obtain ⟨msg', hmem', hpass, hidx⟩ := (mem_filterMessages _ _ _ _).mp hin
    have heq : msg' = msg := parseCombined_index_inj content hmem' hmem hidx
    subst heq
    have hcp : channelPasses q msg' = true := by
      unfold messagePasses at hpass
      simp only [Bool.and_eq_true] at hpass
      exact hpass.1.1.2
    unfold channelPasses at hcp
    rw [hch] at hcp
    simpa using hcp
  · intro hs
    have hs' : noChannelSentinel ∈ q.channels := by simpa using hs
    refine (mem_filterMessages _ _ _ _).mpr ⟨msg, hmem, ?_, rfl⟩
    unfold messagePasses channelPasses
    rw [hch]
    simp [hlvl, hsess, htext, hs']

def c6Content : String := "[00-00 00:00:00.000][I] hi"

def c6Query : FilterQuery :=
  { levels := ["I"], channels := ["(без канала)"], sessions := [0], text := "" }

def c6Msg : LogMessage :=
  { index := 0, timestamp := "00-00 00:00:00.000", level := "I",
    channels := [], text := "hi" }

theorem c6_no_channel_sentinel_witness :
    c6Msg ∈ (parseCombined c6Content).messages ∧
      (c6Msg.index ∈ filterMessages (parseCombined c6Content).messages
          (parseCombined c6Content).sessions c6Query ↔
        c6Query.channels.contains noChannelSentinel = true) :=
  ⟨by decide,
    c6_no_channel_sentinel c6Content c6Query c6Msg (by decide) (by decide) (by decide)
      (by decide) (by decide)⟩

-- ==================== Claim C7: the two-line spec example ====================

/-- C7 counterexample: the spec's example first line lacks the leading `[`,
so it does not match the header regex and the two lines parse to no message
at all (rather than to one message). -/
theorem c7_example_counterexample :
    (parseCombined "00-00 00:00:00.000][I] [A][B] hello\nworld").messages = [] := by
  decide

/-- C7 (amended): with the leading `[` restored on the header line, the two
lines parse to exactly one message with level `I`, channels `[A, B]` and text
`"hello\nworld"`. -/
theorem c7_example_amended :
    (parseCombined "[00-00 00:00:00.000][I] [A][B] hello\nworld").messages =
      [{ index := 0, timestamp := "00-00 00:00:00.000", level := "I",
         channels := ["A", "B"], text := "hello\nworld" }] := by
  rfl

-- ==================== Regenerator characterization ====================

/-- The message index owning each line, following the parser's control flow:
banner lines belong to no message, a header line starts (and belongs to) the
next message, any other line belongs to the currently open message. -/
def ownerScanGo (cur : Option Nat) (count : Nat) : List String → List (Option Nat)
  | [] => []
  | l :: ls =>
    if isBanner l then none :: ownerScanGo cur count ls
    else
      match headMatch l with
      | some _ => some count :: ownerScanGo (some count) (count + 1) ls
      | none => cur :: ownerScanGo cur count ls

def parseOwnerScan (ls : List String) : List (Option Nat) := ownerScanGo none 0 ls

/-- A line survives regeneration iff it is a delimiter line or its owning
message is allowed. -/
def keepLine (S : List Nat) (p : String × Option Nat) : Bool :=
  isBanner p.1 || isPartDelim p.1 ||
    (match p.2 with
     | some k => S.contains k
     | none => false)

def emittedLines (ls : List String) (S : List Nat) : List String :=
  ((ls.zip (parseOwnerScan ls)).filter (keepLine S)).map (fun p => p.1)

/-- The include flag of the regenerator, as a function of the counter. -/
def incOf (S : List Nat) : Option Nat → Bool
  | none => false
  | some k => S.contains k

theorem ownerScanGo_length (ls : List String) :
    ∀ cur count, (ownerScanGo cur count ls).length = ls.length := by
  induction ls with
  | nil => intro cur count; rfl
  | cons l ls ih =>
    intro cur count
    unfold ownerScanGo
    split
    · simp [ih]
    · split <;> simp [ih]

theorem genGo_eq_emit (S : List Nat) : ∀ (ls : List String) (cur : Option Nat),
    genGo S cur (incOf S cur) ls =
      ((ls.zip (ownerScanGo cur (nextIdx cur) ls)).filter (keepLine S)).map (fun p => p.1) := by
  intro ls
  induction ls with
  | nil => intro cur; rfl
  | cons l ls ih =>
    intro cur
    cases hb : isBanner l with
    | true =>
      have hh : headMatch l = none := isBanner_headMatch hb
      rw [show genGo S cur (incOf S cur) (l :: ls) = l :: genGo S cur (incOf S cur) ls by
        simp [genGo, hb]]
      rw [ih cur]
      simp [ownerScanGo, hb, keepLine]
    | false =>
      cases hp : isPartDelim l with
      | true =>
        have hh : headMatch l = none := isPartDelim_headMatch hp
        rw [show genGo S cur (incOf S cur) (l :: ls) = l :: genGo S cur (incOf S cur) ls by
          simp [genGo, hb, hp]]
        rw [ih cur]
        simp [ownerScanGo, hb, hh, keepLine, hp]
      | false =>
        cases hh : headMatch l with
        | some x =>
          rw [show genGo S cur (incOf S cur) (l :: ls) =
              (if S.contains (nextIdx cur) then [l] else []) ++
                genGo S (some (nextIdx cur)) (S.contains (nextIdx cur)) ls by
            simp [genGo, hb, hp, hh]]
          rw [show (S.contains (nextIdx cur)) = incOf S (some (nextIdx cur)) from rfl, ih]
          simp only [ownerScanGo, hb, hh, Bool.false_eq_true, if_false]
          rw [show nextIdx (some (nextIdx cur)) = nextIdx cur + 1 from rfl]
          rw [List.zip_cons_cons, List.filter_cons]
          have hk : keepLine S (l, some (nextIdx cur)) = S.contains (nextIdx cur) := by
            simp [keepLine, hb, hp]
          rw [hk]
          cases hc : S.contains (nextIdx cur) with
          | false =>
            have hm : nextIdx cur ∉ S := by simpa using hc
            simp [incOf, hc, hm]
          | true =>
            have hm : nextIdx cur ∈ S := by simpa using hc
            simp [incOf, hc, hm]
        | none =>
          rw [show genGo S cur (incOf S cur) (l :: ls) =
              (if incOf S cur then [l] else []) ++ genGo S cur (incOf S cur) ls by
            simp [genGo, hb, hp, hh]]
          rw [ih cur]
          simp only [ownerScanGo, hb, hh, Bool.false_eq_true, if_false]
          rw [List.zip_cons_cons, List.filter_cons]
          have hk : keepLine S (l, cur) = incOf S cur := by
            cases cur <;> simp [keepLine, hb, hp, incOf]
          rw [hk]
          cases hc : incOf S cur <;> simp [hc]

theorem countHeaders_cons (l : String) (ls : List String) :
    countHeaders (l :: ls) = countHeaders ls + (if (headMatch l).isSome then 1 else 0) := by
  simp [countHeaders, List.countP_cons]

/-- Tag of a header line: the number of header lines strictly before it,
offset by the running counter. -/
theorem ownerScanGo_header (ls : List String) :
    ∀ cur count i l, ls[i]? = some l → (headMatch l).isSome →
      (ownerScanGo cur count ls)[i]? = some (some (count + countHeaders (ls.take i))) := by
  induction ls with
  | nil => intro cur count i l h; simp at h
  | cons a ls ih =>
    intro cur count i l h hsome
    cases i with
    | zero =>
      simp only [List.getElem?_cons_zero, Option.some.injEq] at h
      subst h
      have hb : isBanner a = false := by
        cases hx : headMatch a with
        | none => rw [hx] at hsome; simp at hsome
        | some x => exact headMatch_not_banner hx
      cases hx : headMatch a with
      | none => rw [hx] at hsome; simp at hsome
      | some x =>
        simp [ownerScanGo, hb, hx, List.take, countHeaders]
    | succ i =>
      simp only [List.getElem?_cons_succ] at h
      have htake : (a :: ls).take (i + 1) = a :: ls.take i := rfl
      rw [htake, countHeaders_cons]
      cases hb : isBanner a with
      | true =>
        have hha : headMatch a = none := isBanner_headMatch hb
        rw [show ownerScanGo cur count (a :: ls) = none :: ownerScanGo cur count ls by
          simp [ownerScanGo, hb]]
        rw [List.getElem?_cons_succ, ih cur count i l h hsome]
        simp [hha]
      | false =>
        cases hha : headMatch a with
        | some x =>
          rw [show ownerScanGo cur count (a :: ls) =
              some count :: ownerScanGo (some count) (count + 1) ls by
            simp [ownerScanGo, hb, hha]]
          rw [List.getElem?_cons_succ, ih (some count) (count + 1) i l h hsome]
          simp only [hha, Option.isSome_some, if_pos]
          congr 2
          omega
        | none =>
          rw [show ownerScanGo cur count (a :: ls) = cur :: ownerScanGo cur count ls by
            simp [ownerScanGo, hb, hha]]
          rw [List.getElem?_cons_succ, ih cur count i l h hsome]
          simp [hha]

theorem chunks_length (ls : List String) : (chunks ls).length = countHeaders ls := by
  induction ls with
  | nil => rfl
  | cons l ls ih =>
    rw [countHeaders_cons]
    cases hb : isBanner l with
    | true =>
      rw [chunks_cons_banner hb, ih, isBanner_headMatch hb]
      simp
    | false =>
      cases hh : headMatch l with
      | some x => rw [chunks_cons_header hb hh]; simp [hh, ih]
      | none => rw [chunks_cons_other hb hh]; simp [hh, ih]

theorem chunkMsgs_map_index (cs : List (String × List String)) :
    ∀ idx, (chunkMsgs idx cs).map (fun m => m.index) = List.range' idx cs.length := by
  induction cs with
  | nil => intro idx; rfl
  | cons c cs ih =>
    intro idx
    simp [chunkMsgs, mkChunkMsg_index, ih (idx + 1), List.range'_succ]

/-- All message indices form the initial segment 0,…,#headers−1. -/
theorem allIndices_eq (content : String) :
    allIndices content = List.range (countHeaders (splitLogLines content)) := by
  unfold allIndices
  rw [parseCombined_messages content, chunkMsgs_map_index, chunks_length,
    List.range_eq_range']

-- ==================== Claim C10: parse/regenerate numbering agreement ====================

/-- C10: the regenerator's running counter agrees with the parser's
message numbering, and regeneration emits exactly the delimiter lines plus
the lines owned by allowed messages.  Conjuncts: (1) the parsed message
sequence is the chunk decomposition (header line plus its continuation
lines, in order), so a message's lines are its chunk's lines; (2) each
header line's owner tag is the number of header lines before it — the index
both passes assign at that line; (3) the parser's message at position k has
index k; (4) regeneration with allowed set S emits, in order, exactly the
lines that are delimiters or are owned by a message whose index is in S. -/
theorem c10_numbering_agreement (content : String) (S : List Nat) :
    ((parseCombined content).messages = chunkMsgs 0 (chunks (splitLogLines content)))
    ∧ (∀ i l, (splitLogLines content)[i]? = some l → (headMatch l).isSome →
        (parseOwnerScan (splitLogLines content))[i]? =
          some (some (countHeaders ((splitLogLines content).take i))))
    ∧ (∀ (k : Nat) (m : LogMessage), (parseCombined content).messages[k]? = some m → m.index = k)
    ∧ generateCombinedLog content S = joinLines (emittedLines (splitLogLines content) S) := by
  refine ⟨parseCombined_messages content, ?_, ?_, ?_⟩
  · intro i l h hsome
    simpa [parseOwnerScan] using ownerScanGo_header (splitLogLines content) none 0 i l h hsome
  · intro k m h
    exact parseCombined_index content k m h
  · unfold generateCombinedLog emittedLines parseOwnerScan
    rw [show (false : Bool) = incOf S none from rfl, genGo_eq_emit S (splitLogLines content) none]
    rfl

def c10Content : String :=
  "===== BEGIN PART: log.txt =====\n[00-00 00:00:00.000][I] a\nc1\n[00-00 00:00:00.001][W] b\n===== END PART: log.txt ====="

theorem c10_numbering_agreement_witness :
    ((splitLogLines c10Content)[1]? = some "[00-00 00:00:00.000][I] a"
      ∧ (headMatch "[00-00 00:00:00.000][I] a").isSome = true)
    ∧ (parseOwnerScan (splitLogLines c10Content))[1]? =
        some (some (countHeaders ((splitLogLines c10Content).take 1)))
    ∧ ((parseCombined c10Content).messages[1]? =
        some { index := 1, timestamp := "00-00 00:00:00.001", level := "W",
               channels := [], text := "b\n===== END PART: log.txt =====" }
      ∧ ({ index := 1, timestamp := "00-00 00:00:00.001", level := "W",
           channels := [], text := "b\n===== END PART: log.txt =====" } : LogMessage).index = 1)
    ∧ generateCombinedLog c10Content [0] =
        joinLines (emittedLines (splitLogLines c10Content) [0]) := by
  refine ⟨⟨by decide, by decide⟩, ?_, ⟨by decide, ?_⟩, ?_⟩
  · exact (c10_numbering_agreement c10Content [0]).2.1 1 "[00-00 00:00:00.000][I] a"
      (by decide) (by decide)
  · exact (c10_numbering_agreement c10Content [0]).2.2.1 1 _ (by decide)
  · exact (c10_numbering_agreement c10Content [0]).2.2.2

-- ==================== Claim C1: regeneration with everything allowed ====================

/-- The input lines with the non-delimiter lines preceding the first header
line removed (from the first header on, everything is kept). -/
def keepFromFirstHeader : List String → List String
  | [] => []
  | l :: ls =>
    if (headMatch l).isSome then l :: ls
    else if isBanner l || isPartDelim l then l :: keepFromFirstHeader ls
    else keepFromFirstHeader ls

theorem genGo_all_true (S : List Nat) : ∀ (ls : List String) (cur : Option Nat),
    (∀ j, j < countHeaders ls → S.contains (nextIdx cur + j) = true) →
    genGo S cur true ls = ls := by
  intro ls
  induction ls with
  | nil => intro cur h; rfl
  | cons l ls ih =>
    intro cur h
    by_cases hd : (isBanner l || isPartDelim l) = true
    · have hh : headMatch l = none := by
        rcases Bool.or_eq_true_iff.mp hd with h1 | h1
        · exact isBanner_headMatch h1
        · exact isPartDelim_headMatch h1
      rw [show genGo S cur true (l :: ls) = l :: genGo S cur true ls by simp [genGo, hd]]
      rw [ih cur (by intro j hj; exact h j (by rw [countHeaders_cons, hh]; simpa using hj))]
    · have hd' : (isBanner l || isPartDelim l) = false := by simpa using hd
      cases hh : headMatch l with
      | some x =>
        have h0 : S.contains (nextIdx cur) = true := by
          have := h 0 (by rw [countHeaders_cons, hh]; simp)
          simpa using this
        rw [show genGo S cur true (l :: ls) =
            (if S.contains (nextIdx cur) then [l] else []) ++
              genGo S (some (nextIdx cur)) (S.contains (nextIdx cur)) ls by
          simp [genGo, hd', hh]]
        rw [h0]
        have hrec : genGo S (some (nextIdx cur)) true ls = ls := by
          refine ih (some (nextIdx cur)) ?_
          intro j hj
          have harith : nextIdx (some (nextIdx cur)) + j = nextIdx cur + (j + 1) := by
            simp [nextIdx]
            omega
          rw [harith]
          refine h (j + 1) ?_
          rw [countHeaders_cons, hh]
          simpa using Nat.succ_lt_succ hj
        rw [hrec]
        simp
      | none =>
        rw [show genGo S cur true (l :: ls) = l :: genGo S cur true ls by
          simp [genGo, hd', hh]]
        rw [ih cur (by intro j hj; exact h j (by rw [countHeaders_cons, hh]; simpa using hj))]

theorem genGo_none_false (S : List Nat) : ∀ ls : List String,
    (∀ j, j < countHeaders ls → S.contains j = true) →
    genGo S none false ls = keepFromFirstHeader ls := by
  intro ls
  induction ls with
  | nil => intro h; rfl
  | cons l ls ih =>
    intro h
    by_cases hd : (isBanner l || isPartDelim l) = true
    · have hh : headMatch l = none := by
        rcases Bool.or_eq_true_iff.mp hd with h1 | h1
        · exact isBanner_headMatch h1
        · exact isPartDelim_headMatch h1
      rw [show genGo S none false (l :: ls) = l :: genGo S none false ls by simp [genGo, hd]]
      rw [show keepFromFirstHeader (l :: ls) = l :: keepFromFirstHeader ls by
        simp [keepFromFirstHeader, hh, hd]]
      rw [ih (by intro j hj; exact h j (by rw [countHeaders_cons, hh]; simpa using hj))]
    · have hd' : (isBanner l || isPartDelim l) = false := by simpa using hd
      cases hh : headMatch l with
      | some x =>
        have h0 : S.contains 0 = true := h 0 (by rw [countHeaders_cons, hh]; simp)
        rw [show genGo S none false (l :: ls) =
            (if S.contains 0 then [l] else []) ++ genGo S (some 0) (S.contains 0) ls by
          simp [genGo, hd', hh, nextIdx]]
        rw [h0]
        have hrec : genGo S (some 0) true ls = ls := by
          refine genGo_all_true S ls (some 0) ?_
          intro j hj
          have harith : nextIdx (some 0) + j = j + 1 := by simp [nextIdx]; omega
          rw [harith]
          refine h (j + 1) ?_
          rw [countHeaders_cons, hh]
          simpa using Nat.succ_lt_succ hj
        rw [hrec]
        rw [show keepFromFirstHeader (l :: ls) = l :: ls by simp [keepFromFirstHeader, hh]]
        simp
      | none =>
        rw [show genGo S none false (l :: ls) = genGo S none false ls by
          simp [genGo, hd', hh]]
        rw [show keepFromFirstHeader (l :: ls) = keepFromFirstHeader ls by
          simp [keepFromFirstHeader, hh, hd']]
        exact ih (by intro j hj; exact h j (by rw [countHeaders_cons, hh]; simpa using hj))

def c1Content : String :=
  "\n===== BEGIN PART: log.txt =====\n[00-00 00:00:00.000][I] hi\n===== END PART: log.txt =====\n"

/-- C1 counterexample: on a combined blob of the very shape the Archive
Reader produces (each part wrapped with a leading newline), regenerating
with every message index allowed drops the non-delimiter lines that precede
the first header line (here the leading empty line), so the output is not
the original content line-for-line. -/
theorem c1_regenerate_counterexample :
    splitLogLines (generateCombinedLog c1Content (allIndices c1Content)) ≠
      splitLogLines c1Content := by
  decide

/-- C1 (amended): regenerating with all message indices allowed reproduces
the original exactly from the first header line on; delimiter lines before
it are kept, and other lines before it are dropped.  In particular, when
every line before the first header is a banner or part delimiter, the
output is the original content (line endings normalized to `\n`). -/
theorem c1_regenerate_amended (content : String) :
    generateCombinedLog content (allIndices content) =
      joinLines (keepFromFirstHeader (splitLogLines content))
    ∧ (keepFromFirstHeader (splitLogLines content) = splitLogLines content →
        generateCombinedLog content (allIndices content) =
          joinLines (splitLogLines content)) := by
  have hmain : generateCombinedLog content (allIndices content) =
      joinLines (keepFromFirstHeader (splitLogLines content)) := by
    unfold generateCombinedLog
    rw [genGo_none_false (allIndices content) (splitLogLines content) ?_]
    intro j hj
    rw [allIndices_eq]
    simpa using List.mem_range.mpr hj
  exact ⟨hmain, fun h => by rw [hmain, h]⟩

def c1wContent : String :=
  "================== APP STARTED =================\n[00-00 00:00:00.000][I] hi"

theorem c1_regenerate_amended_witness :
    keepFromFirstHeader (splitLogLines c1wContent) = splitLogLines c1wContent ∧
      generateCombinedLog c1wContent (allIndices c1wContent) =
        joinLines (splitLogLines c1wContent) :=
  ⟨by decide, (c1_regenerate_amended c1wContent).2 (by decide)⟩

-- ==================== Claim C4: filtering never mutates derived state ====================

/-- C4: applyFilters (and hence any number of filter/regenerate
cycles) leaves the retained original content, the parsed message sequence
and the session list untouched — only the materialized combined file is
rewritten — so re-running filterMessages with the same query afterwards
yields the same index set. -/
theorem c4_applyFilters_frame (st : ProviderState) (ps : List FilterQuery) (q : FilterQuery) :
    (ps.foldl applyFilters st).originalCombinedContent = st.originalCombinedContent
    ∧ (ps.foldl applyFilters st).parsed = st.parsed
    ∧ (ps.foldl applyFilters st).sessions = st.sessions
    ∧ filterMessages (ps.foldl applyFilters st).parsed (ps.foldl applyFilters st).sessions q =
        filterMessages st.parsed st.sessions q := by
  have step : ∀ (s : ProviderState) (p : FilterQuery),
      (applyFilters s p).originalCombinedContent = s.originalCombinedContent
      ∧ (applyFilters s p).parsed = s.parsed
      ∧ (applyFilters s p).sessions = s.sessions := by
    intro s p
    unfold applyFilters
    split
    · exact ⟨rfl, rfl, rfl⟩
    · exact ⟨rfl, rfl, rfl⟩
  induction ps generalizing st with
  | nil => exact ⟨rfl, rfl, rfl, rfl⟩
  | cons p ps ih =>
    have h := ih (applyFilters st p)
    have hs := step st p
    refine ⟨?_, ?_, ?_, ?_⟩
    · rw [List.foldl_cons, h.1, hs.1]
    · rw [List.foldl_cons, h.2.1, hs.2.1]
    · rw [List.foldl_cons, h.2.2.1, hs.2.2]
    · rw [List.foldl_cons, h.2.1, h.2.2.1, hs.2.1, hs.2.2]

-- ==================== Claim C2: delimiter lines in message text ====================

def c2Content : String := "[00-00 00:00:00.000][I] hi\n===== END PART: log.txt ====="

/-- C2 counterexample: a part-delimiter line that appears while a message is
open is appended to that message's text as a continuation line — the parser
only skips session banners, not part delimiters. -/
theorem c2_delimiter_counterexample :
    (parseCombined c2Content).messages.map (fun m => m.text) =
      ["hi\n===== END PART: log.txt ====="] ∧
    ∃ line ∈ splitLogLines "hi\n===== END PART: log.txt =====", isPartDelim line = true := by
  refine ⟨by decide, "===== END PART: log.txt =====", by decide, by decide⟩

/-- Head text of a header line (the message text before continuation lines). -/
def headTextOf (l : String) : String :=
  match headMatch l with
  | some (ts, lvl, after) => (mkHeaderMsg 0 ts lvl after).text
  | none => ""

theorem chunks_mem_spec (ls : List String) : ∀ pr ∈ chunks ls,
    (headMatch pr.1).isSome = true ∧
    ∀ c ∈ pr.2, isBanner c = false ∧ headMatch c = none := by
  induction ls with
  | nil => intro pr h; simp [chunks] at h
  | cons l ls ih =>
    intro pr hpr
    cases hb : isBanner l with
    | true => exact ih pr (by rwa [chunks_cons_banner hb] at hpr)
    | false =>
      cases hh : headMatch l with
      | some x =>
        rw [chunks_cons_header hb hh] at hpr
        rcases List.mem_cons.mp hpr with rfl | hmem
        · refine ⟨by simp [hh], ?_⟩
          intro c hc
          unfold contOf at hc
          have hc' := List.mem_filter.mp hc
          refine ⟨by simpa using hc'.2, ?_⟩
          have := List.mem_takeWhile_imp hc'.1
          simpa using this
        · exact ih pr hmem
      | none => exact ih pr (by rwa [chunks_cons_other hb hh] at hpr)

theorem chunkMsgs_mem (cs : List (String × List String)) :
    ∀ idx msg, msg ∈ chunkMsgs idx cs → ∃ pr ∈ cs, ∃ j, msg = mkChunkMsg j pr := by
  induction cs with
  | nil => intro idx msg h; simp [chunkMsgs] at h
  | cons c cs ih =>
    intro idx msg h
    rcases List.mem_cons.mp h with rfl | hmem
    · exact ⟨c, by simp, idx, rfl⟩
    · obtain ⟨pr, hpr, j, hj⟩ := ih (idx + 1) msg hmem
      exact ⟨pr, by simp [hpr], j, hj⟩

theorem chunks_lines_mem (ls : List String) : ∀ pr ∈ chunks ls,
    pr.1 ∈ ls ∧ ∀ c ∈ pr.2, c ∈ ls := by
  induction ls with
  | nil => intro pr h; simp [chunks] at h
  | cons l ls ih =>
    intro pr hpr
    cases hb : isBanner l with
    | true =>
      obtain ⟨h1, h2⟩ := ih pr (by rwa [chunks_cons_banner hb] at hpr)
      exact ⟨by simp [h1], fun c hc => by simp [h2 c hc]⟩
    | false =>
      cases hh : headMatch l with
      | some x =>
        rw [chunks_cons_header hb hh] at hpr
        rcases List.mem_cons.mp hpr with rfl | hmem
        · refine ⟨by simp, ?_⟩
          intro c hc
          unfold contOf at hc
          have hc1 := (List.mem_filter.mp hc).1
          have hc2 : c ∈ ls := (List.takeWhile_prefix _).subset hc1
          simp [hc2]
        · obtain ⟨h1, h2⟩ := ih pr hmem
          exact ⟨by simp [h1], fun c hc => by simp [h2 c hc]⟩
      | none =>
        obtain ⟨h1, h2⟩ := ih pr (by rwa [chunks_cons_other hb hh] at hpr)
        exact ⟨by simp [h1], fun c hc => by simp [h2 c hc]⟩

/-- C2 (amended): session-banner lines are never incorporated into a
message's text.  The parsed message at index k is built from the input's
k-th chunk: its own header line (an actual input line matching the header
regex) supplies the head text, and the only lines ever appended to the text
are that chunk's continuation lines — actual input lines that are neither
banners nor headers.  Part-delimiter lines, which match neither pattern, do
get appended as ordinary continuation lines when a message is open (see the
counterexample). -/
theorem c2_banner_never_in_text (content : String) (msg : LogMessage)
    (hmem : msg ∈ (parseCombined content).messages) :
    ∃ pr : String × List String,
      (chunks (splitLogLines content))[msg.index]? = some pr ∧
      pr.1 ∈ splitLogLines content ∧
      (headMatch pr.1).isSome = true ∧
      (∀ c ∈ pr.2, c ∈ splitLogLines content ∧ isBanner c = false ∧ headMatch c = none) ∧
      msg.text = pr.2.foldl appendCont (headTextOf pr.1) := by
  rw [parseCombined_messages content] at hmem
  obtain ⟨i, hi, hgi⟩ := List.getElem_of_mem hmem
  have hq : (chunkMsgs 0 (chunks (splitLogLines content)))[i]? = some msg := by
    rw [List.getElem?_eq_getElem hi, hgi]
  rw [chunkMsgs_getElem?] at hq
  cases hpr : (chunks (splitLogLines content))[i]? with
  | none => rw [hpr] at hq; exact absurd hq (by simp)
  | some pr =>
    rw [hpr] at hq
    have hmsg : mkChunkMsg (0 + i) pr = msg := by simpa using hq
    have hidx : msg.index = i := by
      rw [← hmsg, mkChunkMsg_index]
      omega
    have hprmem : pr ∈ chunks (splitLogLines content) := List.getElem?_mem hpr
    obtain ⟨hhead, hcont⟩ := chunks_mem_spec (splitLogLines content) pr hprmem
    obtain ⟨hmemh, hmemc⟩ := chunks_lines_mem (splitLogLines content) pr hprmem
    refine ⟨pr, by rw [hidx]; exact hpr, hmemh, hhead, ?_, ?_⟩
    · intro c hc
      exact ⟨hmemc c hc, (hcont c hc).1, (hcont c hc).2⟩
    · rw [← hmsg]
      unfold mkChunkMsg headTextOf
      cases hh : headMatch pr.1 with
      | none => rw [hh] at hhead; exact absurd hhead (by simp)
      | some x =>
        obtain ⟨ts, lvl, after⟩ := x
        simp only [mkHeaderMsg]

def c2wContent : String := "[00-00 00:00:00.000][I] hi\nworld"

def c2wMsg : LogMessage :=
  { index := 0, timestamp := "00-00 00:00:00.000", level := "I",
    channels := [], text := "hi\nworld" }

theorem c2_banner_never_in_text_witness :
    c2wMsg ∈ (parseCombined c2wContent).messages ∧
      ∃ pr : String × List String,
        (chunks (splitLogLines c2wContent))[c2wMsg.index]? = some pr ∧
        pr.1 ∈ splitLogLines c2wContent ∧
        (headMatch pr.1).isSome = true ∧
        (∀ c ∈ pr.2, c ∈ splitLogLines c2wContent ∧ isBanner c = false ∧ headMatch c = none) ∧
        c2wMsg.text = pr.2.foldl appendCont (headTextOf pr.1) :=
  ⟨by decide, c2_banner_never_in_text c2wContent c2wMsg (by decide)⟩

-- ==================== V2 session bookkeeping lemmas (for C8) ====================

theorem v2_setLastFMT_length (ss : List V2.AppSession) (ts : String) :
    (V2.setLastFMT ss ts).length = ss.length := by
  unfold V2.setLastFMT
  split
  · rfl
  · next s hl =>
    have hne : ss ≠ [] := by
      intro h
      subst h
      simp at hl
    have hpos : 0 < ss.length := List.length_pos.mpr hne
    split
    · simp [List.length_dropLast]
      omega
    · rfl

theorem v2_setLastFMT_stable (ss : List V2.AppSession) (ts : String) (k : Nat)
    (s : V2.AppSession) (hk : ss[k]? = some s)
    (hf : fmtFalsy s.firstMessageTimestamp = false) :
    (V2.setLastFMT ss ts)[k]? = some s := by
  unfold V2.setLastFMT
  split
  · exact hk
  · next slast hl =>
    split
    · next hfal =>
      have hne : ss ≠ [] := by
        intro h
        subst h
        simp at hl
      have hklt : k < ss.length := by
        by_contra hge
        rw [List.getElem?_eq_none (by omega)] at hk
        exact absurd hk (by simp)
      by_cases hlast : k = ss.length - 1
      · have hget : ss[k]? = ss.getLast? := by
          rw [List.getLast?_eq_getElem? _, hlast]
        rw [hget, hl] at hk
        have hse : slast = s := by simpa using hk
        subst hse
        rw [hf] at hfal
        exact absurd hfal (by simp)
      · have hklt3 : k < ss.dropLast.length := by
          simp [List.length_dropLast]
          omega
        rw [List.getElem?_append, if_pos hklt3]
        rw [List.dropLast_eq_take, List.getElem?_take, if_pos (by omega)]
        exact hk
    · exact hk

theorem getElem?_some_lt {α : Type} {l : List α} {k : Nat} {x : α}
    (h : l[k]? = some x) : k < l.length := by
  by_contra hge
  rw [List.getElem?_eq_none (by omega)] at h
  exact absurd h (by simp)

/-- A session whose first-message timestamp is already set (to a non-falsy
value) is never modified again by the main loop. -/
theorem v2_parseLoop_stable (ls : List String) : ∀ (st : V2.ParseState) (k : Nat)
    (s : V2.AppSession), st.sessions[k]? = some s →
    fmtFalsy s.firstMessageTimestamp = false →
    (V2.parseLoop st ls).sessions[k]? = some s := by
  induction ls with
  | nil => intro st k s hk hf; exact hk
  | cons l ls ih =>
    intro st k s hk hf
    cases hb : isBanner l with
    | true =>
      rw [show V2.parseLoop st (l :: ls) = V2.parseLoop { st with
          sessions := st.sessions ++
            [{ index := st.sessionIndex + 1, startLine := st.lineNo,
               startOffset := st.index, firstMessageTimestamp := none,
               buildVersion := V2.findBuildVersion ls, transitions := [] }],
          sessionIndex := st.sessionIndex + 1,
          lineNo := st.lineNo + 1 } ls by simp [V2.parseLoop, hb]]
      have happ : ∀ extra : V2.AppSession, (st.sessions ++ [extra])[k]? = some s := by
        intro extra
        rw [List.getElem?_append, if_pos (getElem?_some_lt hk)]
        exact hk
      exact ih _ k s (happ _) hf
    | false =>
      cases hh : headMatch l with
      | some x =>
        obtain ⟨ts, lvl, after⟩ := x
        rw [show V2.parseLoop st (l :: ls) = V2.parseLoop { st with
            parsed := st.parsed ++ st.current.toList,
            sessions := V2.setLastFMT st.sessions ts,
            current := some (mkHeaderMsg st.index ts lvl after),
            index := st.index + 1,
            lineNo := st.lineNo + 1 } ls by simp [V2.parseLoop, hb, hh]]
        exact ih _ k s (v2_setLastFMT_stable st.sessions ts k s hk hf) hf
      | none =>
        cases hc : st.current with
        | some c =>
          rw [show V2.parseLoop st (l :: ls) = V2.parseLoop { st with
              current := some { c with text := appendCont c.text l },
              lineNo := st.lineNo + 1 } ls by simp [V2.parseLoop, hb, hh, hc]]
          exact ih _ k s hk hf
        | none =>
          rw [show V2.parseLoop st (l :: ls) = V2.parseLoop { st with
              lineNo := st.lineNo + 1 } ls by simp [V2.parseLoop, hb, hh, hc]]
          exact ih _ k s hk hf

theorem v2_setLastFMT_eq_of_falsy (ss : List V2.AppSession) (ts : String)
    (s₀ : V2.AppSession) (hl : ss.getLast? = some s₀)
    (hfal : fmtFalsy s₀.firstMessageTimestamp = true) :
    V2.setLastFMT ss ts = ss.dropLast ++ [{ s₀ with firstMessageTimestamp := some ts }] := by
  unfold V2.setLastFMT
  split
  · next h => rw [h] at hl; exact absurd hl (by simp)
  · next s h =>
    have hse : s = s₀ := by
      rw [h] at hl
      simpa using hl
    subst hse
    rw [if_pos hfal]

/-- After a banner whose session is still timestamp-less, the first header
line (with no banner or header in between) stamps that session. -/
theorem v2_fmt_set (N₁ : List String) : ∀ (st : V2.ParseState) (s₀ : V2.AppSession)
    (h : String) (N₂ : List String) (ts : String) (lvl : Char) (after : List Char),
    (∀ l ∈ N₁, isBanner l = false ∧ headMatch l = none) →
    headMatch h = some (ts, lvl, after) →
    st.sessions.getLast? = some s₀ →
    s₀.firstMessageTimestamp = none →
    (V2.parseLoop st (N₁ ++ h :: N₂)).sessions[st.sessions.length - 1]? =
      some { s₀ with firstMessageTimestamp := some ts } := by
  induction N₁ with
  | nil =>
    intro st s₀ h N₂ ts lvl after hN₁ hh hl hfmt
    have hb : isBanner h = false := headMatch_not_banner hh
    have hne : st.sessions ≠ [] := by
      intro hx
      rw [hx] at hl
      simp at hl
    have hpos : 0 < st.sessions.length := List.length_pos.mpr hne
    rw [List.nil_append]
    rw [show V2.parseLoop st (h :: N₂) = V2.parseLoop { st with
        parsed := st.parsed ++ st.current.toList,
        sessions := V2.setLastFMT st.sessions ts,
        current := some (mkHeaderMsg st.index ts lvl after),
        index := st.index + 1,
        lineNo := st.lineNo + 1 } N₂ by simp [V2.parseLoop, hb, hh]]
    have hfal : fmtFalsy s₀.firstMessageTimestamp = true := by simp [fmtFalsy, hfmt]
    have hts : ts ≠ "" := headMatch_ts_ne_empty hh
    refine v2_parseLoop_stable N₂ _ (st.sessions.length - 1) _ ?_ (by simp [fmtFalsy, hts])
    show (V2.setLastFMT st.sessions ts)[st.sessions.length - 1]? =
      some { s₀ with firstMessageTimestamp := some ts }
    rw [v2_setLastFMT_eq_of_falsy st.sessions ts s₀ hl hfal]
    rw [List.getElem?_append_right (by simp [List.length_dropLast])]
    simp [List.length_dropLast]
  | cons n N₁ ih =>
    intro st s₀ h N₂ ts lvl after hN₁ hh hl hfmt
    obtain ⟨hnb, hnh⟩ := hN₁ n (by simp)
    have hN₁' : ∀ l ∈ N₁, isBanner l = false ∧ headMatch l = none := by
      intro l hlmem
      exact hN₁ l (by simp [hlmem])
    rw [List.cons_append]
    cases hc : st.current with
    | some c =>
      rw [show V2.parseLoop st (n :: (N₁ ++ h :: N₂)) = V2.parseLoop { st with
          current := some { c with text := appendCont c.text n },
          lineNo := st.lineNo + 1 } (N₁ ++ h :: N₂) by simp [V2.parseLoop, hnb, hnh, hc]]
      exact ih _ s₀ h N₂ ts lvl after hN₁' hh hl hfmt
    | none =>
      rw [show V2.parseLoop st (n :: (N₁ ++ h :: N₂)) = V2.parseLoop { st with
          lineNo := st.lineNo + 1 } (N₁ ++ h :: N₂) by simp [V2.parseLoop, hnb, hnh, hc]]
      exact ih _ s₀ h N₂ ts lvl after hN₁' hh hl hfmt

theorem countBanners_cons (l : String) (ls : List String) :
    countBanners (l :: ls) = countBanners ls + (if isBanner l then 1 else 0) := by
  simp [countBanners, List.countP_cons]

/-- Processing a banner line creates a session whose build version is the
forward scan of the remaining lines and whose timestamp is set by the first
subsequent header (with no banner or header in between). -/
theorem v2_session_create (A : List String) : ∀ (st : V2.ParseState) (b : String)
    (N₁ N₂ : List String) (h : String) (ts : String) (lvl : Char) (after : List Char),
    isBanner b = true →
    (∀ l ∈ N₁, isBanner l = false ∧ headMatch l = none) →
    headMatch h = some (ts, lvl, after) →
    ∃ s, (V2.parseLoop st (A ++ b :: (N₁ ++ h :: N₂))).sessions[st.sessions.length +
        countBanners A]? = some s ∧
      s.index = st.sessionIndex + countBanners A + 1 ∧
      s.buildVersion = V2.findBuildVersion (N₁ ++ h :: N₂) ∧
      s.firstMessageTimestamp = some ts := by
  induction A with
  | nil =>
    intro st b N₁ N₂ h ts lvl after hb hN₁ hh
    rw [List.nil_append]
    rw [show V2.parseLoop st (b :: (N₁ ++ h :: N₂)) = V2.parseLoop { st with
        sessions := st.sessions ++
          [{ index := st.sessionIndex + 1, startLine := st.lineNo,
             startOffset := st.index, firstMessageTimestamp := none,
             buildVersion := V2.findBuildVersion (N₁ ++ h :: N₂), transitions := [] }],
        sessionIndex := st.sessionIndex + 1,
        lineNo := st.lineNo + 1 } (N₁ ++ h :: N₂) by simp [V2.parseLoop, hb]]
    have hkey := v2_fmt_set N₁ { st with
        sessions := st.sessions ++
          [{ index := st.sessionIndex + 1, startLine := st.lineNo,
             startOffset := st.index, firstMessageTimestamp := none,
             buildVersion := V2.findBuildVersion (N₁ ++ h :: N₂), transitions := [] }],
        sessionIndex := st.sessionIndex + 1,
        lineNo := st.lineNo + 1 }
      { index := st.sessionIndex + 1, startLine := st.lineNo,
        startOffset := st.index, firstMessageTimestamp := none,
        buildVersion := V2.findBuildVersion (N₁ ++ h :: N₂), transitions := [] }
      h N₂ ts lvl after hN₁ hh (by simp) rfl
    dsimp only at hkey
    simp only [List.length_append, List.length_cons, List.length_nil,
      Nat.add_sub_cancel] at hkey
    refine ⟨{ index := st.sessionIndex + 1, startLine := st.lineNo,
              startOffset := st.index, firstMessageTimestamp := some ts,
              buildVersion := V2.findBuildVersion (N₁ ++ h :: N₂), transitions := [] },
            ?_, rfl, rfl, rfl⟩
    have hzero : countBanners ([] : List String) = 0 := rfl
    rw [hzero, Nat.add_zero]
    exact hkey
  | cons a A ih =>
    intro st b N₁ N₂ h ts lvl after hb hN₁ hh
    rw [List.cons_append]
    cases hab : isBanner a with
    | true =>
      have hcb : countBanners (a :: A) = countBanners A + 1 := by
        rw [countBanners_cons, hab]
        simp
      rw [show V2.parseLoop st (a :: (A ++ b :: (N₁ ++ h :: N₂))) = V2.parseLoop { st with
          sessions := st.sessions ++
            [{ index := st.sessionIndex + 1, startLine := st.lineNo,
               startOffset := st.index, firstMessageTimestamp := none,
               buildVersion := V2.findBuildVersion (A ++ b :: (N₁ ++ h :: N₂)),
               transitions := [] }],
          sessionIndex := st.sessionIndex + 1,
          lineNo := st.lineNo + 1 } (A ++ b :: (N₁ ++ h :: N₂)) by simp [V2.parseLoop, hab]]
      obtain ⟨s, hs, hidx, hbv, hts⟩ := ih { st with
          sessions := st.sessions ++
            [{ index := st.sessionIndex + 1, startLine := st.lineNo,
               startOffset := st.index, firstMessageTimestamp := none,
               buildVersion := V2.findBuildVersion (A ++ b :: (N₁ ++ h :: N₂)),
               transitions := [] }],
          sessionIndex := st.sessionIndex + 1,
          lineNo := st.lineNo + 1 } b N₁ N₂ h ts lvl after hb hN₁ hh
      dsimp only at hs hidx
      simp only [List.length_append, List.length_cons, List.length_nil] at hs
      refine ⟨s, ?_, ?_, hbv, hts⟩
      · have harith : st.sessions.length + countBanners (a :: A) =
            st.sessions.length + 1 + countBanners A := by rw [hcb]; omega
        rw [harith]
        exact hs
      · rw [hidx, hcb]
        omega
    | false =>
      have hcb : countBanners (a :: A) = countBanners A := by
        rw [countBanners_cons, hab]
        simp
      cases hah : headMatch a with
      | some x =>
        obtain ⟨ts2, lvl2, after2⟩ := x
        rw [show V2.parseLoop st (a :: (A ++ b :: (N₁ ++ h :: N₂))) = V2.parseLoop { st with
            parsed := st.parsed ++ st.current.toList,
            sessions := V2.setLastFMT st.sessions ts2,
            current := some (mkHeaderMsg st.index ts2 lvl2 after2),
            index := st.index + 1,
            lineNo := st.lineNo + 1 } (A ++ b :: (N₁ ++ h :: N₂)) by
          simp [V2.parseLoop, hab, hah]]
        obtain ⟨s, hs, hidx, hbv, hts⟩ := ih { st with
            parsed := st.parsed ++ st.current.toList,
            sessions := V2.setLastFMT st.sessions ts2,
            current := some (mkHeaderMsg st.index ts2 lvl2 after2),
            index := st.index + 1,
            lineNo := st.lineNo + 1 } b N₁ N₂ h ts lvl after hb hN₁ hh
        dsimp only at hs hidx
        rw [v2_setLastFMT_length st.sessions ts2] at hs
        refine ⟨s, ?_, ?_, hbv, hts⟩
        · rw [hcb]
          exact hs
        · rw [hidx, hcb]
      | none =>
        cases hc : st.current with
        | some c =>
          rw [show V2.parseLoop st (a :: (A ++ b :: (N₁ ++ h :: N₂))) = V2.parseLoop { st with
              current := some { c with text := appendCont c.text a },
              lineNo := st.lineNo + 1 } (A ++ b :: (N₁ ++ h :: N₂)) by
            simp [V2.parseLoop, hab, hah, hc]]
          obtain ⟨s, hs, hidx, hbv, hts⟩ := ih { st with
              current := some { c with text := appendCont c.text a },
              lineNo := st.lineNo + 1 } b N₁ N₂ h ts lvl after hb hN₁ hh
          dsimp only at hs hidx
          refine ⟨s, ?_, ?_, hbv, hts⟩
          · rw [hcb]
            exact hs
          · rw [hidx, hcb]
        | none =>
          rw [show V2.parseLoop st (a :: (A ++ b :: (N₁ ++ h :: N₂))) = V2.parseLoop { st with
              lineNo := st.lineNo + 1 } (A ++ b :: (N₁ ++ h :: N₂)) by
            simp [V2.parseLoop, hab, hah, hc]]
          obtain ⟨s, hs, hidx, hbv, hts⟩ := ih { st with
              lineNo := st.lineNo + 1 } b N₁ N₂ h ts lvl after hb hN₁ hh
          dsimp only at hs hidx
          refine ⟨s, ?_, ?_, hbv, hts⟩
          · rw [hcb]
            exact hs
          · rw [hidx, hcb]

theorem v2_findBuildVersion_first (M₁ : List String) : ∀ (x : String) (M₂ : List String)
    (v : String), (∀ l ∈ M₁, isBanner l = false ∧ V2.buildVersionOf l = none) →
    isBanner x = false → V2.buildVersionOf x = some v →
    V2.findBuildVersion (M₁ ++ x :: M₂) = some v := by
  induction M₁ with
  | nil =>
    intro x M₂ v hM₁ hxb hx
    simp [V2.findBuildVersion, hxb, hx]
  | cons m M₁ ih =>
    intro x M₂ v hM₁ hxb hx
    obtain ⟨hmb, hmv⟩ := hM₁ m (by simp)
    rw [List.cons_append]
    rw [show V2.findBuildVersion (m :: (M₁ ++ x :: M₂)) =
        V2.findBuildVersion (M₁ ++ x :: M₂) by simp [V2.findBuildVersion, hmb, hmv]]
    exact ih x M₂ v (fun l hl => hM₁ l (by simp [hl])) hxb hx

/-- The tuple of session fields that the transition pass never touches. -/
def sessionCore (s : V2.AppSession) : Nat × Nat × Nat × Option String × Option String :=
  (s.index, s.startLine, s.startOffset, s.firstMessageTimestamp, s.buildVersion)

theorem v2_pushTransition_core (sid : Nat) (tr : V2.StateTransition) :
    ∀ (ss : List V2.AppSession) (k : Nat),
    ((V2.pushTransition sid tr ss)[k]?).map sessionCore = (ss[k]?).map sessionCore := by
  intro ss
  induction ss with
  | nil => intro k; rfl
  | cons s rest ih =>
    intro k
    unfold V2.pushTransition
    split
    · cases k with
      | zero => simp [sessionCore]
      | succ k => simp
    · cases k with
      | zero => simp
      | succ k => simpa using ih k

theorem v2_attach_core (parsed : List LogMessage) : ∀ (ss : List V2.AppSession) (k : Nat),
    ((V2.attachTransitions parsed ss)[k]?).map sessionCore = (ss[k]?).map sessionCore := by
  induction parsed with
  | nil => intro ss k; rfl
  | cons m parsed ih =>
    intro ss k
    unfold V2.attachTransitions at *
    rw [List.foldl_cons, ih]
    unfold V2.attachStep
    split
    · split
      · exact v2_pushTransition_core _ _ ss k
      · rfl
    · rfl

-- ==================== Claim C8: session build version and first timestamp ====================

/-- C8: for an input whose lines split as `A ++ [banner] ++ N₁ ++ [h] ++ N₂`
where no line of `N₁` is a banner or a header, `h` is a header line with
timestamp `ts`, and the forward scan from the banner (stopping at the next
banner) finds `Build version:` first on a line `x` of `N₁`/`h` region with
captured (trimmed) version `v` — i.e. `N₁ ++ h :: N₂ = M₁ ++ x :: M₂` with no
banner or build-version match in `M₁` — the session created by that banner
(the `countBanners A`-th, 1-based index `countBanners A + 1`) has
`buildVersion = some v` and `firstMessageTimestamp = some ts`. -/
theorem c8_session_buildversion_timestamp (content : String) (A N₁ N₂ M₁ M₂ : List String)
    (b h x : String) (ts : String) (lvl : Char) (after : List Char) (v : String)
    (hsplit : splitLogLines content = A ++ b :: (N₁ ++ h :: N₂))
    (hb : isBanner b = true)
    (hN₁ : ∀ l ∈ N₁, isBanner l = false ∧ headMatch l = none)
    (hh : headMatch h = some (ts, lvl, after))
    (hM : N₁ ++ h :: N₂ = M₁ ++ x :: M₂)
    (hM₁ : ∀ l ∈ M₁, isBanner l = false ∧ V2.buildVersionOf l = none)
    (hxb : isBanner x = false)
    (hx : V2.buildVersionOf x = some v) :
    ∃ s, ((V2.parseCombined content).sessions)[countBanners A]? = some s ∧
      s.index = countBanners A + 1 ∧
      s.buildVersion = some v ∧
      s.firstMessageTimestamp = some ts := by
  obtain ⟨s, hs, hidx, hbv, hts⟩ := v2_session_create A ⟨[], [], none, 0, 0, 0⟩ b N₁ N₂ h
    ts lvl after hb hN₁ hh
  rw [hM, v2_findBuildVersion_first M₁ x M₂ v hM₁ hxb hx] at hbv
  dsimp only at hs hidx
  simp only [List.length_nil, Nat.zero_add] at hs hidx
  have hsess : (V2.parseCombined content).sessions =
      V2.attachTransitions
        ((V2.parseLoop ⟨[], [], none, 0, 0, 0⟩ (splitLogLines content)).parsed ++
          (V2.parseLoop ⟨[], [], none, 0, 0, 0⟩ (splitLogLines content)).current.toList)
        (V2.parseLoop ⟨[], [], none, 0, 0, 0⟩ (splitLogLines content)).sessions := rfl
  have hcoreeq := v2_attach_core
    ((V2.parseLoop ⟨[], [], none, 0, 0, 0⟩ (splitLogLines content)).parsed ++
      (V2.parseLoop ⟨[], [], none, 0, 0, 0⟩ (splitLogLines content)).current.toList)
    (V2.parseLoop ⟨[], [], none, 0, 0, 0⟩ (splitLogLines content)).sessions
    (countBanners A)
  rw [← hsess] at hcoreeq
  rw [hsplit, hs] at hcoreeq
  cases hres : (V2.parseCombined content).sessions[countBanners A]? with
  | none =>
    rw [hres] at hcoreeq
    exact absurd hcoreeq (by simp)
  | some s2 =>
    rw [hres] at hcoreeq
    have hcore : sessionCore s2 = sessionCore s := by simpa using hcoreeq
    unfold sessionCore at hcore
    refine ⟨s2, rfl, ?_, ?_, ?_⟩
    · rw [show s2.index = s.index from congrArg (fun p => p.1) hcore]
      exact hidx
    · rw [show s2.buildVersion = s.buildVersion from congrArg (fun p => p.2.2.2.2) hcore]
      exact hbv
    · rw [show s2.firstMessageTimestamp = s.firstMessageTimestamp from
        congrArg (fun p => p.2.2.2.1) hcore]
      exact hts

def c8Content : String :=
  "================== APP STARTED =================\nBuild version: 1.2.3\n[01-02 03:04:05.678][I] hi"

theorem c8_session_buildversion_timestamp_witness :
    ∃ s, ((V2.parseCombined c8Content).sessions)[0]? = some s ∧
      s.index = 1 ∧
      s.buildVersion = some "1.2.3" ∧
      s.firstMessageTimestamp = some "01-02 03:04:05.678" :=
  c8_session_buildversion_timestamp c8Content [] ["Build version: 1.2.3"] [] []
    ["[01-02 03:04:05.678][I] hi"]
    "================== APP STARTED =================" "[01-02 03:04:05.678][I] hi"
    "Build version: 1.2.3" "01-02 03:04:05.678" 'I' " hi".data "1.2.3"
    (by decide) (by decide) (by decide) (by decide) (by decide) (by decide)
    (by decide) (by decide)

-- ==================== C9 groundwork ====================

/-- Both revisions parse the same message sequence (they differ only in the
session metadata they gather). -/
theorem v2_messages_eq (content : String) :
    (V2.parseCombined content).messages = (parseCombined content).messages := by
  suffices h : ∀ ls (st1 : ParseState) (st2 : V2.ParseState),
      st1.parsed = st2.parsed → st1.current = st2.current → st1.index = st2.index →
      (V2.parseLoop st2 ls).parsed = (parseLoop st1 ls).parsed ∧
      (V2.parseLoop st2 ls).current = (parseLoop st1 ls).current by
    have hx := h (splitLogLines content) ⟨[], [], none, 0, 0, 0⟩ ⟨[], [], none, 0, 0, 0⟩
      rfl rfl rfl
    show (V2.parseLoop ⟨[], [], none, 0, 0, 0⟩ (splitLogLines content)).parsed ++
        (V2.parseLoop ⟨[], [], none, 0, 0, 0⟩ (splitLogLines content)).current.toList =
      (parseLoop ⟨[], [], none, 0, 0, 0⟩ (splitLogLines content)).parsed ++
        (parseLoop ⟨[], [], none, 0, 0, 0⟩ (splitLogLines content)).current.toList
    rw [hx.1, hx.2]
  intro ls
  induction ls with
  | nil =>
    intro st1 st2 h1 h2 h3
    exact ⟨h1.symm, h2.symm⟩
  | cons l ls ih =>
    intro st1 st2 h1 h2 h3
    cases hb : isBanner l with
    | true =>
      rw [show parseLoop st1 (l :: ls) = parseLoop { st1 with
          sessions := st1.sessions ++
            [{ index := st1.sessionIndex + 1, startLine := st1.lineNo,
               startOffset := st1.index, firstMessageTimestamp := none }],
          sessionIndex := st1.sessionIndex + 1,
          lineNo := st1.lineNo + 1 } ls by simp [parseLoop, hb]]
      rw [show V2.parseLoop st2 (l :: ls) = V2.parseLoop { st2 with
          sessions := st2.sessions ++
            [{ index := st2.sessionIndex + 1, startLine := st2.lineNo,
               startOffset := st2.index, firstMessageTimestamp := none,
               buildVersion := V2.findBuildVersion ls, transitions := [] }],
          sessionIndex := st2.sessionIndex + 1,
          lineNo := st2.lineNo + 1 } ls by simp [V2.parseLoop, hb]]
      exact ih _ _ h1 h2 h3
    | false =>
      cases hh : headMatch l with
      | some x =>
        obtain ⟨ts, lvl, after⟩ := x
        rw [show parseLoop st1 (l :: ls) = parseLoop { st1 with
            parsed := st1.parsed ++ st1.current.toList,
            sessions := setLastFMT st1.sessions ts,
            current := some (mkHeaderMsg st1.index ts lvl after),
            index := st1.index + 1,
            lineNo := st1.lineNo + 1 } ls by simp [parseLoop, hb, hh]]
        rw [show V2.parseLoop st2 (l :: ls) = V2.parseLoop { st2 with
            parsed := st2.parsed ++ st2.current.toList,
            sessions := V2.setLastFMT st2.sessions ts,
            current := some (mkHeaderMsg st2.index ts lvl after),
            index := st2.index + 1,
            lineNo := st2.lineNo + 1 } ls by simp [V2.parseLoop, hb, hh]]
        exact ih _ _ (by simp [h1, h2]) (by simp [h3]) (by simp [h3])
      | none =>
        cases hc : st1.current with
        | some c =>
          rw [show parseLoop st1 (l :: ls) = parseLoop { st1 with
              current := some { c with text := appendCont c.text l },
              lineNo := st1.lineNo + 1 } ls by simp [parseLoop, hb, hh, hc]]
          rw [show V2.parseLoop st2 (l :: ls) = V2.parseLoop { st2 with
              current := some { c with text := appendCont c.text l },
              lineNo := st2.lineNo + 1 } ls by simp [V2.parseLoop, hb, hh, h2 ▸ hc]]
          exact ih _ _ h1 (by simp) h3
        | none =>
          rw [show parseLoop st1 (l :: ls) = parseLoop { st1 with
              lineNo := st1.lineNo + 1 } ls by simp [parseLoop, hb, hh, hc]]
          rw [show V2.parseLoop st2 (l :: ls) = V2.parseLoop { st2 with
              lineNo := st2.lineNo + 1 } ls by simp [V2.parseLoop, hb, hh, h2 ▸ hc]]
          exact ih _ _ h1 h2 h3

theorem chunkMsgs_index_le (cs : List (String × List String)) :
    ∀ idx m, m ∈ chunkMsgs idx cs → idx ≤ m.index := by
  induction cs with
  | nil => intro idx m h; simp [chunkMsgs] at h
  | cons c cs ih =>
    intro idx m h
    rcases List.mem_cons.mp h with rfl | hmem
    · rw [mkChunkMsg_index]
    · exact le_trans (by omega) (ih (idx + 1) m hmem)

theorem chunkMsgs_sorted (cs : List (String × List String)) :
    ∀ idx, List.Pairwise (fun a b => a.index < b.index) (chunkMsgs idx cs) := by
  induction cs with
  | nil => intro idx; simp [chunkMsgs]
  | cons c cs ih =>
    intro idx
    refine List.pairwise_cons.mpr ⟨?_, ih (idx + 1)⟩
    intro m hm
    rw [mkChunkMsg_index]
    exact lt_of_lt_of_le (by omega) (chunkMsgs_index_le cs (idx + 1) m hm)

/-- The parsed message indices are strictly increasing. -/
theorem v2_messages_sorted (content : String) :
    List.Pairwise (fun a b => a.index < b.index) (V2.parseCombined content).messages := by
  rw [v2_messages_eq, parseCombined_messages]
  exact chunkMsgs_sorted _ 0

/-- A message produces a transition iff it carries both channels and a match. -/
def producesTransition (msg : LogMessage) : Bool :=
  V2.qualifies msg && (V2.matchFromTo msg.text).isSome

def totalTransitionsFor (ss : List V2.AppSession) (i : Nat) : Nat :=
  (ss.map (fun s => (s.transitions.filter (fun tr => tr.messageIndex = i)).length)).sum

def hasIndex (ss : List V2.AppSession) (sid : Nat) : Bool :=
  ss.any (fun s => s.index == sid)

theorem v2_pushTransition_count (sid : Nat) (tr : V2.StateTransition) (i : Nat) :
    ∀ ss : List V2.AppSession,
    totalTransitionsFor (V2.pushTransition sid tr ss) i =
      totalTransitionsFor ss i +
        (if hasIndex ss sid && (tr.messageIndex == i) then 1 else 0) := by
  intro ss
  induction ss with
  | nil => simp [V2.pushTransition, totalTransitionsFor, hasIndex]
  | cons s rest ih =>
    unfold V2.pushTransition
    split
    · next hidx =>
      have hhas : hasIndex (s :: rest) sid = true := by
        simp [hasIndex, List.any_cons, hidx]
      rw [hhas]
      simp only [totalTransitionsFor, List.map_cons, List.sum_cons]
      rw [List.filter_append]
      by_cases hmi : tr.messageIndex = i
      · simp [hmi]
        omega
      · simp [hmi, List.filter_cons]
    · next hidx =>
      have hhas : hasIndex (s :: rest) sid = hasIndex rest sid := by
        simp [hasIndex, List.any_cons]
        intro hx
        exact absurd hx hidx
      simp only [totalTransitionsFor, List.map_cons, List.sum_cons] at *
      rw [ih, hhas]
      omega

theorem v2_pushTransition_coremap (sid : Nat) (tr : V2.StateTransition) :
    ∀ ss : List V2.AppSession,
    (V2.pushTransition sid tr ss).map sessionCore = ss.map sessionCore := by
  intro ss
  induction ss with
  | nil => rfl
  | cons s rest ih =>
    unfold V2.pushTransition
    split
    · simp [sessionCore]
    · simp [ih]

theorem v2_attachStep_coremap (ss : List V2.AppSession) (m : LogMessage) :
    (V2.attachStep ss m).map sessionCore = ss.map sessionCore := by
  unfold V2.attachStep
  split
  · split
    · exact v2_pushTransition_coremap _ _ ss
    · rfl
  · rfl

theorem v2_attach_coremap (parsed : List LogMessage) : ∀ ss : List V2.AppSession,
    (V2.attachTransitions parsed ss).map sessionCore = ss.map sessionCore := by
  induction parsed with
  | nil => intro ss; rfl
  | cons m parsed ih =>
    intro ss
    unfold V2.attachTransitions at *
    rw [List.foldl_cons, ih, v2_attachStep_coremap]

theorem v2_getSession_of_coremap : ∀ (ss ss' : List V2.AppSession),
    ss.map sessionCore = ss'.map sessionCore →
    ∀ sid idx, V2.getSessionByMessageIndex.go idx sid ss =
      V2.getSessionByMessageIndex.go idx sid ss' := by
  intro ss
  induction ss with
  | nil =>
    intro ss' hmap sid idx
    cases ss' with
    | nil => rfl
    | cons s' rest' => simp at hmap
  | cons s rest ih =>
    intro ss' hmap sid idx
    cases ss' with
    | nil => simp at hmap
    | cons s' rest' =>
      simp only [List.map_cons, List.cons.injEq] at hmap
      have hso : s.startOffset = s'.startOffset :=
        congrArg (fun p => p.2.2.1) hmap.1
      have hsi : s.index = s'.index := congrArg (fun p => p.1) hmap.1
      unfold V2.getSessionByMessageIndex.go
      rw [hso, hsi]
      split
      · exact ih rest' hmap.2 s'.index idx
      · rfl

theorem v2_getSession_congr (ss ss' : List V2.AppSession)
    (hmap : ss.map sessionCore = ss'.map sessionCore) (idx : Nat) :
    V2.getSessionByMessageIndex ss idx = V2.getSessionByMessageIndex ss' idx :=
  v2_getSession_of_coremap ss ss' hmap 0 idx

/-- The session lookup returns 0 or the index of a listed session. -/
theorem v2_getSession_zero_or_mem (ss : List V2.AppSession) (idx : Nat) :
    V2.getSessionByMessageIndex ss idx = 0 ∨
      ∃ s ∈ ss, s.index = V2.getSessionByMessageIndex ss idx := by
  suffices h : ∀ (l : List V2.AppSession) (sid : Nat),
      V2.getSessionByMessageIndex.go idx sid l = sid ∨
        ∃ s ∈ l, s.index = V2.getSessionByMessageIndex.go idx sid l by
    rcases h ss 0 with h1 | h2
    · exact Or.inl h1
    · exact Or.inr h2
  intro l
  induction l with
  | nil => intro sid; exact Or.inl rfl
  | cons s rest ih =>
    intro sid
    unfold V2.getSessionByMessageIndex.go
    split
    · rcases ih s.index with h1 | ⟨s2, hs2, he⟩
      · exact Or.inr ⟨s, by simp, h1.symm⟩
      · exact Or.inr ⟨s2, by simp [hs2], he⟩
    · exact Or.inl rfl

theorem v2_hasIndex_of_mem {ss : List V2.AppSession} {sid : Nat}
    (h : ∃ s ∈ ss, s.index = sid) : hasIndex ss sid = true := by
  obtain ⟨s, hmem, hidx⟩ := h
  unfold hasIndex
  rw [List.any_eq_true]
  exact ⟨s, hmem, by simp [hidx]⟩

theorem v2_hasIndex_false_of_nonzero {ss : List V2.AppSession}
    (hnz : ∀ s ∈ ss, s.index ≠ 0) : hasIndex ss 0 = false := by
  unfold hasIndex
  rw [List.any_eq_false]
  intro s hs
  simpa using hnz s hs

theorem v2_attachStep_count (ss : List V2.AppSession) (m : LogMessage) (i : Nat)
    (hnz : ∀ s ∈ ss, s.index ≠ 0) :
    totalTransitionsFor (V2.attachStep ss m) i =
      totalTransitionsFor ss i +
        (if producesTransition m && !(V2.getSessionByMessageIndex ss m.index == 0)
            && (m.index == i) then 1 else 0) := by
  unfold V2.attachStep
  cases hq : V2.qualifies m with
  | false =>
    simp [producesTransition, hq]
  | true =>
    cases hm : V2.matchFromTo m.text with
    | none =>
      simp [producesTransition, hq, hm]
    | some ft =>
      obtain ⟨f, t⟩ := ft
      have hprod : producesTransition m = true := by simp [producesTransition, hq, hm]
      show totalTransitionsFor
          (V2.pushTransition (V2.getSessionByMessageIndex ss m.index)
            { messageIndex := m.index, timestamp := m.timestamp,
              fromState := f, toState := t } ss) i =
        totalTransitionsFor ss i +
          (if producesTransition m && !(V2.getSessionByMessageIndex ss m.index == 0)
              && (m.index == i) then 1 else 0)
      rw [v2_pushTransition_count]
      rw [hprod]
      by_cases hsid : V2.getSessionByMessageIndex ss m.index = 0
      · have hfalse : hasIndex ss 0 = false := v2_hasIndex_false_of_nonzero hnz
        rw [hsid]
        simp [hfalse]
      · have hmem : ∃ s ∈ ss, s.index = V2.getSessionByMessageIndex ss m.index := by
          rcases v2_getSession_zero_or_mem ss m.index with h1 | h2
          · exact absurd h1 hsid
          · exact h2
        have htrue : hasIndex ss (V2.getSessionByMessageIndex ss m.index) = true :=
          v2_hasIndex_of_mem hmem
        rw [htrue]
        have hz : (V2.getSessionByMessageIndex ss m.index == 0) = false := by
          simpa using hsid
        rw [hz]
        simp

theorem v2_attachStep_index_map (ss : List V2.AppSession) (m : LogMessage) :
    (V2.attachStep ss m).map (fun s => s.index) = ss.map (fun s => s.index) := by
  have h := congrArg (fun l => l.map (fun p : Nat × Nat × Nat × Option String × Option String => p.1))
    (v2_attachStep_coremap ss m)
  simpa [List.map_map, Function.comp, sessionCore] using h

theorem v2_attachStep_nonzero (ss : List V2.AppSession) (m : LogMessage)
    (hnz : ∀ s ∈ ss, s.index ≠ 0) : ∀ s ∈ V2.attachStep ss m, s.index ≠ 0 := by
  intro s hs
  have hmem : s.index ∈ (V2.attachStep ss m).map (fun s => s.index) :=
    List.mem_map_of_mem _ hs
  rw [v2_attachStep_index_map] at hmem
  obtain ⟨s2, hs2, he⟩ := List.mem_map.mp hmem
  rw [← he]
  exact hnz s2 hs2

theorem v2_attach_count (parsed : List LogMessage) : ∀ (ss : List V2.AppSession) (i : Nat),
    (∀ s ∈ ss, s.index ≠ 0) →
    totalTransitionsFor (V2.attachTransitions parsed ss) i =
      totalTransitionsFor ss i +
        parsed.countP (fun m => producesTransition m &&
          !(V2.getSessionByMessageIndex ss m.index == 0) && (m.index == i)) := by
  induction parsed with
  | nil => intro ss i hnz; simp [V2.attachTransitions]
  | cons m parsed ih =>
    intro ss i hnz
    have hstep : V2.attachTransitions (m :: parsed) ss =
        V2.attachTransitions parsed (V2.attachStep ss m) := by
      unfold V2.attachTransitions
      rw [List.foldl_cons]
    rw [hstep]
    rw [ih (V2.attachStep ss m) i (v2_attachStep_nonzero ss m hnz)]
    rw [v2_attachStep_count ss m i hnz]
    have hcongr : ∀ x ∈ parsed,
        (producesTransition x &&
          !(V2.getSessionByMessageIndex (V2.attachStep ss m) x.index == 0) && (x.index == i)) =
        (producesTransition x &&
          !(V2.getSessionByMessageIndex ss x.index == 0) && (x.index == i)) := by
      intro x hx
      rw [v2_getSession_congr (V2.attachStep ss m) ss (v2_attachStep_coremap ss m) x.index]
    rw [List.countP_congr (fun x hx => by rw [hcongr x hx])]
    rw [List.countP_cons]
    omega

theorem v2_push_inserts (sid : Nat) (tr : V2.StateTransition) :
    ∀ ss : List V2.AppSession, hasIndex ss sid = true →
    ∃ s' ∈ V2.pushTransition sid tr ss, s'.index = sid ∧ tr ∈ s'.transitions := by
  intro ss
  induction ss with
  | nil => intro h; simp [hasIndex] at h
  | cons s rest ih =>
    intro h
    unfold V2.pushTransition
    split
    · next heq =>
      refine ⟨{ s with transitions := s.transitions ++ [tr] }, by simp, heq, by simp⟩
    · next hne =>
      have h' : hasIndex rest sid = true := by
        simp only [hasIndex, List.any_cons] at h
        rcases Bool.or_eq_true_iff.mp h with h1 | h1
        · exact absurd (by simpa using h1) hne
        · exact h1
      obtain ⟨s', hmem, hidx, htr⟩ := ih h'
      exact ⟨s', by simp [hmem], hidx, htr⟩

theorem v2_push_mem_cases (sid : Nat) (tr : V2.StateTransition) :
    ∀ ss : List V2.AppSession, ∀ s' ∈ V2.pushTransition sid tr ss,
    ∃ s ∈ ss, s'.index = s.index ∧
      (s'.transitions = s.transitions ∨ s'.transitions = s.transitions ++ [tr]) := by
  intro ss
  induction ss with
  | nil => intro s' h; simp [V2.pushTransition] at h
  | cons s rest ih =>
    intro s' h
    unfold V2.pushTransition at h
    split at h
    · rcases List.mem_cons.mp h with rfl | hmem
      · exact ⟨s, by simp, rfl, Or.inr rfl⟩
      · exact ⟨s', by simp [hmem], rfl, Or.inl rfl⟩
    · rcases List.mem_cons.mp h with rfl | hmem
      · exact ⟨s', by simp, rfl, Or.inl rfl⟩
      · obtain ⟨s2, hs2, hidx, hcase⟩ := ih s' hmem
        exact ⟨s2, by simp [hs2], hidx, hcase⟩

theorem v2_attachStep_mem_cases (ss : List V2.AppSession) (m : LogMessage) :
    ∀ s' ∈ V2.attachStep ss m,
    ∃ s ∈ ss, s'.index = s.index ∧
      (s'.transitions = s.transitions ∨
        ∃ f t, V2.matchFromTo m.text = some (f, t) ∧
          s'.transitions = s.transitions ++
            [{ messageIndex := m.index, timestamp := m.timestamp,
               fromState := f, toState := t }]) := by
  intro s' h
  unfold V2.attachStep at h
  split at h
  · split at h
    · next f t hm =>
      obtain ⟨s, hs, hidx, hcase⟩ := v2_push_mem_cases _ _ ss s' h
      rcases hcase with h1 | h1
      · exact ⟨s, hs, hidx, Or.inl h1⟩
      · exact ⟨s, hs, hidx, Or.inr ⟨f, t, hm, h1⟩⟩
    · exact ⟨s', h, rfl, Or.inl rfl⟩
  · exact ⟨s', h, rfl, Or.inl rfl⟩

theorem v2_push_extends (sid : Nat) (tr : V2.StateTransition) :
    ∀ (ss : List V2.AppSession) (s' : V2.AppSession), s' ∈ ss →
    ∃ s'' ∈ V2.pushTransition sid tr ss, s''.index = s'.index ∧
      ∃ ext, s''.transitions = s'.transitions ++ ext := by
  intro ss
  induction ss with
  | nil => intro s' h; simp at h
  | cons s rest ih =>
    intro s' h
    unfold V2.pushTransition
    split
    · rcases List.mem_cons.mp h with rfl | hmem
      · exact ⟨{ s' with transitions := s'.transitions ++ [tr] }, by simp, rfl, [tr], rfl⟩
      · exact ⟨s', by simp [hmem], rfl, [], by simp⟩
    · rcases List.mem_cons.mp h with rfl | hmem
      · exact ⟨s', by simp, rfl, [], by simp⟩
      · obtain ⟨s'', hmem'', hidx, ext, hext⟩ := ih s' hmem
        exact ⟨s'', by simp [hmem''], hidx, ext, hext⟩

theorem v2_attachStep_extends (ss : List V2.AppSession) (m : LogMessage) :
    ∀ s' ∈ ss, ∃ s'' ∈ V2.attachStep ss m, s''.index = s'.index ∧
      ∃ ext, s''.transitions = s'.transitions ++ ext := by
  intro s' h
  unfold V2.attachStep
  split
  · split
    · exact v2_push_extends _ _ ss s' h
    · exact ⟨s', h, rfl, [], by simp⟩
  · exact ⟨s', h, rfl, [], by simp⟩

theorem v2_attach_extends (parsed : List LogMessage) :
    ∀ (ss : List V2.AppSession) (s' : V2.AppSession), s' ∈ ss →
    ∃ s'' ∈ V2.attachTransitions parsed ss, s''.index = s'.index ∧
      ∃ ext, s''.transitions = s'.transitions ++ ext := by
  induction parsed with
  | nil => intro ss s' h; exact ⟨s', h, rfl, [], by simp⟩
  | cons m parsed ih =>
    intro ss s' h
    have hstep : V2.attachTransitions (m :: parsed) ss =
        V2.attachTransitions parsed (V2.attachStep ss m) := by
      unfold V2.attachTransitions
      rw [List.foldl_cons]
    rw [hstep]
    obtain ⟨s1, hs1, hidx1, ext1, hext1⟩ := v2_attachStep_extends ss m s' h
    obtain ⟨s2, hs2, hidx2, ext2, hext2⟩ := ih (V2.attachStep ss m) s1 hs1
    exact ⟨s2, hs2, by rw [hidx2, hidx1], ext1 ++ ext2, by rw [hext2, hext1, List.append_assoc]⟩

theorem v2_attach_nonzero (parsed : List LogMessage) :
    ∀ ss : List V2.AppSession, (∀ s ∈ ss, s.index ≠ 0) →
    ∀ s ∈ V2.attachTransitions parsed ss, s.index ≠ 0 := by
  induction parsed with
  | nil => intro ss hnz; exact hnz
  | cons m parsed ih =>
    intro ss hnz
    have hstep : V2.attachTransitions (m :: parsed) ss =
        V2.attachTransitions parsed (V2.attachStep ss m) := by
      unfold V2.attachTransitions
      rw [List.foldl_cons]
    rw [hstep]
    exact ih (V2.attachStep ss m) (v2_attachStep_nonzero ss m hnz)

def transSorted (s : V2.AppSession) : Prop :=
  List.Pairwise (fun a b => a.messageIndex < b.messageIndex) s.transitions

theorem v2_attach_sorted (parsed : List LogMessage) :
    ∀ ss : List V2.AppSession,
    List.Pairwise (fun a b => a.index < b.index) parsed →
    (∀ s ∈ ss, transSorted s ∧
      ∀ tr ∈ s.transitions, ∀ m ∈ parsed, tr.messageIndex < m.index) →
    ∀ s ∈ V2.attachTransitions parsed ss, transSorted s := by
  induction parsed with
  | nil =>
    intro ss hsort hinv s hmem
    exact (hinv s hmem).1
  | cons m parsed ih =>
    intro ss hsort hinv
    have hstep : V2.attachTransitions (m :: parsed) ss =
        V2.attachTransitions parsed (V2.attachStep ss m) := by
      unfold V2.attachTransitions
      rw [List.foldl_cons]
    rw [hstep]
    refine ih (V2.attachStep ss m) (List.pairwise_cons.mp hsort).2 ?_
    intro s' hmem'
    obtain ⟨s, hs, hidx, hcase⟩ := v2_attachStep_mem_cases ss m s' hmem'
    obtain ⟨hsorted, hbound⟩ := hinv s hs
    rcases hcase with heq | ⟨f, t, hm, heq⟩
    · refine ⟨by rw [transSorted, heq]; exact hsorted, ?_⟩
      intro tr htr m2 hm2
      rw [heq] at htr
      exact hbound tr htr m2 (by simp [hm2])
    · constructor
      · rw [transSorted, heq]
        rw [List.pairwise_append]
        refine ⟨hsorted, by simp, ?_⟩
        intro a ha b hb
        simp only [List.mem_singleton] at hb
        subst hb
        exact hbound a ha m (by simp)
      · intro tr htr m2 hm2
        rw [heq] at htr
        rcases List.mem_append.mp htr with h1 | h1
        · exact hbound tr h1 m2 (by simp [hm2])
        · simp only [List.mem_singleton] at h1
          subst h1
          exact (List.pairwise_cons.mp hsort).1 m2 hm2

theorem v2_setLastFMT_mem_cases (ss : List V2.AppSession) (ts : String) :
    ∀ s' ∈ V2.setLastFMT ss ts, ∃ s ∈ ss, s'.transitions = s.transitions ∧ s'.index = s.index := by
  intro s' h
  unfold V2.setLastFMT at h
  split at h
  · exact ⟨s', h, rfl, rfl⟩
  · next slast hl =>
    split at h
    · rcases List.mem_append.mp h with h1 | h1
      · exact ⟨s', List.dropLast_subset _ h1, rfl, rfl⟩
      · simp only [List.mem_singleton] at h1
        subst h1
        have hmem : slast ∈ ss := List.mem_of_mem_getLast? hl
        exact ⟨slast, hmem, rfl, rfl⟩
    · exact ⟨s', h, rfl, rfl⟩

theorem v2_parseLoop_raw_inv (ls : List String) : ∀ st : V2.ParseState,
    (∀ s ∈ st.sessions, s.transitions = [] ∧ s.index ≠ 0) →
    ∀ s ∈ (V2.parseLoop st ls).sessions, s.transitions = [] ∧ s.index ≠ 0 := by
  induction ls with
  | nil => intro st hinv; exact hinv
  | cons l ls ih =>
    intro st hinv
    cases hb : isBanner l with
    | true =>
      rw [show V2.parseLoop st (l :: ls) = V2.parseLoop { st with
          sessions := st.sessions ++
            [{ index := st.sessionIndex + 1, startLine := st.lineNo,
               startOffset := st.index, firstMessageTimestamp := none,
               buildVersion := V2.findBuildVersion ls, transitions := [] }],
          sessionIndex := st.sessionIndex + 1,
          lineNo := st.lineNo + 1 } ls by simp [V2.parseLoop, hb]]
      refine ih _ ?_
      intro s hs
      rcases List.mem_append.mp hs with h1 | h1
      · exact hinv s h1
      · simp only [List.mem_singleton] at h1
        subst h1
        exact ⟨rfl, by simp⟩
    | false =>
      cases hh : headMatch l with
      | some x =>
        obtain ⟨ts, lvl, after⟩ := x
        rw [show V2.parseLoop st (l :: ls) = V2.parseLoop { st with
            parsed := st.parsed ++ st.current.toList,
            sessions := V2.setLastFMT st.sessions ts,
            current := some (mkHeaderMsg st.index ts lvl after),
            index := st.index + 1,
            lineNo := st.lineNo + 1 } ls by simp [V2.parseLoop, hb, hh]]
        refine ih _ ?_
        intro s hs
        obtain ⟨s0, hs0, htr, hidx⟩ := v2_setLastFMT_mem_cases st.sessions ts s hs
        obtain ⟨h1, h2⟩ := hinv s0 hs0
        exact ⟨htr.trans h1, hidx ▸ h2⟩
      | none =>
        cases hc : st.current with
        | some c =>
          rw [show V2.parseLoop st (l :: ls) = V2.parseLoop { st with
              current := some { c with text := appendCont c.text l },
              lineNo := st.lineNo + 1 } ls by simp [V2.parseLoop, hb, hh, hc]]
          exact ih _ hinv
        | none =>
          rw [show V2.parseLoop st (l :: ls) = V2.parseLoop { st with
              lineNo := st.lineNo + 1 } ls by simp [V2.parseLoop, hb, hh, hc]]
          exact ih _ hinv

theorem v2_attach_append (xs ys : List LogMessage) (ss : List V2.AppSession) :
    V2.attachTransitions (xs ++ ys) ss =
      V2.attachTransitions ys (V2.attachTransitions xs ss) := by
  unfold V2.attachTransitions
  rw [List.foldl_append]

theorem totalTransitionsFor_zero (ss : List V2.AppSession) (i : Nat)
    (h : ∀ s ∈ ss, s.transitions = []) : totalTransitionsFor ss i = 0 := by
  induction ss with
  | nil => rfl
  | cons s rest ih =>
    simp only [totalTransitionsFor, List.map_cons, List.sum_cons]
    rw [h s (by simp)]
    have := ih (fun s' hs' => h s' (by simp [hs']))
    simp only [totalTransitionsFor] at this
    simp [this]

theorem pairwise_index_inj {l : List LogMessage}
    (h : List.Pairwise (fun a b => a.index < b.index) l) :
    ∀ a ∈ l, ∀ b ∈ l, a.index = b.index → a = b := by
  induction l with
  | nil => intro a ha; simp at ha
  | cons c rest ih =>
    intro a ha b hb heq
    obtain ⟨hc, hrest⟩ := List.pairwise_cons.mp h
    rcases List.mem_cons.mp ha with rfl | ha' <;> rcases List.mem_cons.mp hb with rfl | hb'
    · rfl
    · exact absurd heq (by have := hc b hb'; omega)
    · exact absurd heq (by have := hc a ha'; omega)
    · exact ih hrest a ha' b hb' heq

/-- Core of the transition-extraction correctness, over an arbitrary parsed
message list with strictly increasing indices and freshly parsed sessions. -/
theorem v2_attach_main (msgs : List LogMessage) (raw : List V2.AppSession)
    (hsort : List.Pairwise (fun a b => a.index < b.index) msgs)
    (hraw : ∀ s ∈ raw, s.transitions = [] ∧ s.index ≠ 0)
    (msg : LogMessage) (f t : String)
    (hmem : msg ∈ msgs)
    (hch1 : "GameStateManager" ∈ msg.channels)
    (hch2 : "GameStateChanged" ∈ msg.channels)
    (hm : V2.matchFromTo msg.text = some (f, t))
    (hsid : V2.getSessionByMessageIndex (V2.attachTransitions msgs raw) msg.index ≠ 0) :
    totalTransitionsFor (V2.attachTransitions msgs raw) msg.index = 1
    ∧ (∃ s ∈ V2.attachTransitions msgs raw,
        s.index = V2.getSessionByMessageIndex (V2.attachTransitions msgs raw) msg.index ∧
        ({ messageIndex := msg.index, timestamp := msg.timestamp,
           fromState := f, toState := t } : V2.StateTransition) ∈ s.transitions)
    ∧ (∀ s ∈ V2.attachTransitions msgs raw, transSorted s)
    ∧ (∀ msg2 ∈ msgs, producesTransition msg2 = false →
        totalTransitionsFor (V2.attachTransitions msgs raw) msg2.index = 0) := by
  have hnz : ∀ s ∈ raw, s.index ≠ 0 := fun s hs => (hraw s hs).2
  have htre : ∀ s ∈ raw, s.transitions = [] := fun s hs => (hraw s hs).1
  have hcongrS : ∀ j, V2.getSessionByMessageIndex (V2.attachTransitions msgs raw) j =
      V2.getSessionByMessageIndex raw j :=
    fun j => v2_getSession_congr _ _ (v2_attach_coremap msgs raw) j
  have hsidraw : V2.getSessionByMessageIndex raw msg.index ≠ 0 := by
    rw [← hcongrS msg.index]
    exact hsid
  have hq : V2.qualifies msg = true := by
    simp [V2.qualifies, hch1, hch2]
  have hprod : producesTransition msg = true := by
    simp [producesTransition, hq, hm]
  refine ⟨?_, ?_, ?_, ?_⟩
  · -- exactly one transition for msg.index
    rw [v2_attach_count msgs raw msg.index hnz, totalTransitionsFor_zero raw _ htre]
    obtain ⟨P₁, P₂, hsplit⟩ := List.mem_iff_append.mp hmem
    rw [hsplit]
    rw [hsplit] at hsort
    rw [List.countP_append, List.countP_cons]
    obtain ⟨hP₁all, hconsP⟩ := List.pairwise_append.mp hsort
    obtain ⟨hmsghead, hP₂⟩ := List.pairwise_cons.mp hconsP.1
    have hzero₁ : P₁.countP (fun m => producesTransition m &&
        !(V2.getSessionByMessageIndex raw m.index == 0) && (m.index == msg.index)) = 0 := by
      rw [List.countP_eq_zero]
      intro x hx
      have hlt : x.index < msg.index := hconsP.2 x hx msg (by simp)
      simp [Nat.ne_of_lt hlt]
    have hzero₂ : P₂.countP (fun m => producesTransition m &&
        !(V2.getSessionByMessageIndex raw m.index == 0) && (m.index == msg.index)) = 0 := by
      rw [List.countP_eq_zero]
      intro x hx
      have hlt : msg.index < x.index := hmsghead x hx
      simp [ne_of_gt hlt]
    rw [hzero₁, hzero₂]
    have hsidb : (V2.getSessionByMessageIndex raw msg.index == 0) = false := by
      simpa using hsidraw
    simp [hprod, hsidb]
  · -- the transition lands in the owning session
    obtain ⟨P₁, P₂, hsplit⟩ := List.mem_iff_append.mp hmem
    rw [hsplit, v2_attach_append]
    rw [show V2.attachTransitions (msg :: P₂) (V2.attachTransitions P₁ raw) =
        V2.attachTransitions P₂ (V2.attachStep (V2.attachTransitions P₁ raw) msg) by
      unfold V2.attachTransitions
      rw [List.foldl_cons]]
    have hX : V2.getSessionByMessageIndex (V2.attachTransitions P₁ raw) msg.index =
        V2.getSessionByMessageIndex raw msg.index :=
      v2_getSession_congr _ _ (v2_attach_coremap P₁ raw) msg.index
    have hnzX : ∀ s ∈ V2.attachTransitions P₁ raw, s.index ≠ 0 :=
      v2_attach_nonzero P₁ raw hnz
    have hfound : hasIndex (V2.attachTransitions P₁ raw)
        (V2.getSessionByMessageIndex (V2.attachTransitions P₁ raw) msg.index) = true := by
      rcases v2_getSession_zero_or_mem (V2.attachTransitions P₁ raw) msg.index with h1 | h2
      · rw [hX] at h1
        exact absurd h1 hsidraw
      · exact v2_hasIndex_of_mem h2
    have hstepeq : V2.attachStep (V2.attachTransitions P₁ raw) msg =
        V2.pushTransition
          (V2.getSessionByMessageIndex (V2.attachTransitions P₁ raw) msg.index)
          { messageIndex := msg.index, timestamp := msg.timestamp,
            fromState := f, toState := t }
          (V2.attachTransitions P₁ raw) := by
      unfold V2.attachStep
      rw [hq]
      simp [hm]
    rw [hstepeq]
    obtain ⟨s', hs', hids', htr'⟩ := v2_push_inserts _ _ _ hfound
    obtain ⟨s'', hs'', hids'', ext, hext⟩ := v2_attach_extends P₂ _ s' hs'
    refine ⟨s'', hs'', ?_, ?_⟩
    · rw [hids'', hids']
      have hchain : (V2.attachTransitions P₂
          (V2.pushTransition
            (V2.getSessionByMessageIndex (V2.attachTransitions P₁ raw) msg.index)
            { messageIndex := msg.index, timestamp := msg.timestamp,
              fromState := f, toState := t }
            (V2.attachTransitions P₁ raw))).map sessionCore = raw.map sessionCore := by
        rw [v2_attach_coremap, v2_pushTransition_coremap, v2_attach_coremap]
      rw [v2_getSession_congr _ raw hchain msg.index]
      exact hX
    · rw [hext]
      exact List.mem_append_left _ htr'
  · -- transitions are in message-index order within each session
    refine v2_attach_sorted msgs raw hsort ?_
    intro s hs
    refine ⟨by rw [transSorted, (hraw s hs).1]; exact List.Pairwise.nil, ?_⟩
    intro tr htr
    rw [(hraw s hs).1] at htr
    simp at htr
  · -- non-qualifying messages produce no transition
    intro msg2 hmem2 hprod2
    rw [v2_attach_count msgs raw msg2.index hnz, totalTransitionsFor_zero raw _ htre]
    rw [List.countP_eq_zero.mpr ?_]
    intro x hx hpx
    simp only [Bool.and_eq_true, beq_iff_eq] at hpx
    have hxeq : x = msg2 := pairwise_index_inj hsort x hx msg2 hmem2 hpx.2
    rw [hxeq] at hpx
    rw [hprod2] at hpx
    exact absurd hpx.1.1 (by simp)

-- ==================== Claim C9: state transitions ====================

def c9cContent : String :=
  "[01-02 03:04:05.678][I] [GameStateManager][GameStateChanged] From Menu to Gameplay"

/-- C9 counterexample: a qualifying message that precedes any banner is owned
by the implicit session 0, which is not in the session list, so its
transition is silently dropped — no StateTransition is recorded anywhere,
contradicting the claim that exactly one is recorded for every qualifying
message. -/
theorem c9_transition_counterexample :
    (∃ msg ∈ (V2.parseCombined c9cContent).messages,
       "GameStateManager" ∈ msg.channels ∧ "GameStateChanged" ∈ msg.channels ∧
       V2.matchFromTo msg.text = some ("Menu", "Gameplay")) ∧
    (V2.parseCombined c9cContent).sessions = [] := by
  refine ⟨?_, by decide⟩
  decide

/-- C9 (amended): for every parsed message carrying both
`GameStateManager` and `GameStateChanged` whose text matches the
`From … to …` pattern, provided its owning session is a real banner-started
session (owner index ≠ 0): exactly one StateTransition with that message's
index (and its timestamp, from and to captures) is recorded, it sits in the
owning session's list, transitions are in message-index order within every
session, and messages not meeting the conditions produce no transition.
Messages owned by the implicit session 0 produce no recorded transition
(see the counterexample). -/
theorem c9_state_transitions (content : String) (msg : LogMessage) (f t : String)
    (hmem : msg ∈ (V2.parseCombined content).messages)
    (hch1 : "GameStateManager" ∈ msg.channels)
    (hch2 : "GameStateChanged" ∈ msg.channels)
    (hm : V2.matchFromTo msg.text = some (f, t))
    (hsid : V2.getSessionByMessageIndex (V2.parseCombined content).sessions msg.index ≠ 0) :
    totalTransitionsFor (V2.parseCombined content).sessions msg.index = 1
    ∧ (∃ s ∈ (V2.parseCombined content).sessions,
        s.index = V2.getSessionByMessageIndex (V2.parseCombined content).sessions msg.index ∧
        ({ messageIndex := msg.index, timestamp := msg.timestamp,
           fromState := f, toState := t } : V2.StateTransition) ∈ s.transitions)
    ∧ (∀ s ∈ (V2.parseCombined content).sessions, transSorted s)
    ∧ (∀ msg2 ∈ (V2.parseCombined content).messages, producesTransition msg2 = false →
        totalTransitionsFor (V2.parseCombined content).sessions msg2.index = 0) := by
  have hraw : ∀ s ∈ (V2.parseLoop ⟨[], [], none, 0, 0, 0⟩ (splitLogLines content)).sessions,
      s.transitions = [] ∧ s.index ≠ 0 :=
    v2_parseLoop_raw_inv (splitLogLines content) ⟨[], [], none, 0, 0, 0⟩ (by simp)
  exact v2_attach_main
    ((V2.parseLoop ⟨[], [], none, 0, 0, 0⟩ (splitLogLines content)).parsed ++
      (V2.parseLoop ⟨[], [], none, 0, 0, 0⟩ (splitLogLines content)).current.toList)
    (V2.parseLoop ⟨[], [], none, 0, 0, 0⟩ (splitLogLines content)).sessions
    (v2_messages_sorted content) hraw msg f t hmem hch1 hch2 hm hsid

def c9wContent : String :=
  "================== APP STARTED =================\n[01-02 03:04:05.678][I] [GameStateManager][GameStateChanged] From Menu to Gameplay"

def c9wMsg : LogMessage :=
  { index := 0, timestamp := "01-02 03:04:05.678", level := "I",
    channels := ["GameStateManager", "GameStateChanged"], text := "From Menu to Gameplay" }

theorem c9_state_transitions_witness :
    c9wMsg ∈ (V2.parseCombined c9wContent).messages ∧
    (totalTransitionsFor (V2.parseCombined c9wContent).sessions c9wMsg.index = 1
      ∧ (∃ s ∈ (V2.parseCombined c9wContent).sessions,
          s.index = V2.getSessionByMessageIndex (V2.parseCombined c9wContent).sessions
            c9wMsg.index ∧
          ({ messageIndex := c9wMsg.index, timestamp := c9wMsg.timestamp,
             fromState := "Menu", toState := "Gameplay" } : V2.StateTransition) ∈ s.transitions)
      ∧ (∀ s ∈ (V2.parseCombined c9wContent).sessions, transSorted s)
      ∧ (∀ msg2 ∈ (V2.parseCombined c9wContent).messages, producesTransition msg2 = false →
          totalTransitionsFor (V2.parseCombined c9wContent).sessions msg2.index = 0)) :=
  ⟨by decide,
    c9_state_transitions c9wContent c9wMsg "Menu" "Gameplay" (by decide) (by decide)
      (by decide) (by decide) (by decide)⟩
